import Mathlib

/-!
Verification development for the NueFS manifest-compiler layer.

The Python sources under `src/python/nuefs/` (manifest.py, lockfile.py,
builder.py, workspace.py, core.py) are shallowly embedded below.  Path
strings whose components contain no `/` are modelled as component lists
(`List String`); a filesystem snapshot is modelled as an `FSTree`, whose
`err` flags mark nodes on which a stat or directory listing raises an
OS error (permission denied, vanished after enumeration).  Symbolic links
are modelled as the opaque leaf `FSTree.link`: the Python code treats them
as non-directories wherever the claims under study apply.
-/

namespace NueFS

/-- A pathspec (gitignore-style pattern list) is treated as a black box:
a list of pattern predicates; a spec matches a string when some pattern
does, and an empty spec (`Pathspec()`) matches nothing and is falsy. -/
abbrev Pathspec := List (String → Bool)

/-- Pathspec.match from the sheaves library, treated as a black box. -/
def psMatch (ps : Pathspec) (s : String) : Bool := ps.any (fun f => f s)

/-- A snapshot of a host directory tree.  `file err` is a non-directory
inode whose stat raises when `err` is true; `dir err cs` is a directory
whose listing raises when `err` is true; `link` is a symbolic link. -/
inductive FSTree where
  | file (err : Bool)
  | link
  | dir (err : Bool) (children : List (String × FSTree))

theorem sizeOf_lt_of_mem_children {n : String} {t : FSTree} {e : Bool}
    {cs : List (String × FSTree)} (h : (n, t) ∈ cs) :
    sizeOf t < sizeOf (FSTree.dir e cs) := by
  have h1 := List.sizeOf_lt_of_mem h
  simp at h1 ⊢
  omega

/-- Induction over a tree with the inductive hypothesis available at
every child of a directory node. -/
theorem FSTree.myInduct (P : FSTree → Prop)
    (hfile : ∀ e, P (.file e)) (hlink : P .link)
    (hdir : ∀ e cs, (∀ n t, (n, t) ∈ cs → P t) → P (.dir e cs)) : ∀ t, P t := by
  have key : ∀ k t, sizeOf t ≤ k → P t := by
    intro k
    induction k with
    | zero =>
      intro t ht
      cases t <;> simp at ht
    | succ k ih =>
      intro t ht
      match t with
      | .file e => exact hfile e
      | .link => exact hlink
      | .dir e cs =>
        refine hdir e cs (fun n t hm => ih t ?_)
        have := sizeOf_lt_of_mem_children (e := e) hm
        omega
  exact fun t => key (sizeOf t) t le_rfl

mutual

def treeBeq : FSTree → FSTree → Bool
  | .file e, .file e' => e == e'
  | .link, .link => true
  | .dir e cs, .dir e' cs' => e == e' && treeListBeq cs cs'
  | _, _ => false

def treeListBeq : List (String × FSTree) → List (String × FSTree) → Bool
  | [], [] => true
  | (n, t) :: r, (n', t') :: r' => n == n' && treeBeq t t' && treeListBeq r r'
  | _, _ => false

end

theorem treeBeq_iff : ∀ t t', treeBeq t t' = true ↔ t = t' := by
  have listaux : ∀ cs cs', (∀ n t, (n, t) ∈ cs → ∀ t', treeBeq t t' = true ↔ t = t') →
      (treeListBeq cs cs' = true ↔ cs = cs') := by
    intro cs
    induction cs with
    | nil => intro cs' _; cases cs' <;> simp [treeListBeq]
    | cons hd tl ih =>
      intro cs' hmem
      obtain ⟨n, t⟩ := hd
      cases cs' with
      | nil => simp [treeListBeq]
      | cons hd' tl' =>
        obtain ⟨n', t'⟩ := hd'
        have h1 := hmem n t (by simp) t'
        have h2 := ih tl' (fun m u hm u' => hmem m u (List.mem_cons_of_mem _ hm) u')
        simp [treeListBeq, h1, h2]
  intro t
  induction t using FSTree.myInduct with
  | hfile e => intro t'; cases t' <;> simp [treeBeq]
  | hlink => intro t'; cases t' <;> simp [treeBeq]
  | hdir e cs ih =>
    intro t'
    cases t' with
    | file e' => simp [treeBeq]
    | link => simp [treeBeq]
    | dir e' cs' =>
      have := listaux cs cs' ih
      simp [treeBeq, this]

instance : DecidableEq FSTree :=
  fun a b => decidable_of_iff (treeBeq a b = true) (treeBeq_iff a b)

mutual

def depth : FSTree → Nat
  | .file _ => 0
  | .link => 0
  | .dir _ cs => 1 + depthList cs

def depthList : List (String × FSTree) → Nat
  | [] => 0
  | c :: rest => max (depth c.2) (depthList rest)

end

theorem depth_le_of_mem {n : String} {t : FSTree} {cs : List (String × FSTree)}
    (h : (n, t) ∈ cs) : depth t ≤ depthList cs := by
  induction cs with
  | nil => cases h
  | cons hd tl ih =>
    rw [depthList]
    rcases List.mem_cons.mp h with h1 | h1
    · subst h1; exact le_max_left _ _
    · exact le_trans (ih h1) (le_max_right _ _)

mutual

def errFree : FSTree → Bool
  | .file e => !e
  | .link => true
  | .dir e cs => !e && errFreeList cs

def errFreeList : List (String × FSTree) → Bool
  | [] => true
  | c :: rest => errFree c.2 && errFreeList rest

end

theorem errFreeList_iff (cs : List (String × FSTree)) :
    errFreeList cs = true ↔ ∀ c ∈ cs, errFree c.2 = true := by
  induction cs with
  | nil => simp [errFreeList]
  | cons hd tl ih => simp [errFreeList, ih]

theorem errFree_of_mem {n : String} {t : FSTree} {e : Bool} {cs : List (String × FSTree)}
    (hwf : errFree (.dir e cs) = true) (h : (n, t) ∈ cs) : errFree t = true := by
  rw [errFree, Bool.and_eq_true, errFreeList_iff] at hwf
  exact hwf.2 (n, t) h

mutual

def wfTree : FSTree → Bool
  | .file _ => true
  | .link => true
  | .dir _ cs => (cs.map Prod.fst).Nodup && wfList cs

def wfList : List (String × FSTree) → Bool
  | [] => true
  | c :: rest => wfTree c.2 && wfList rest

end

theorem wfList_iff (cs : List (String × FSTree)) :
    wfList cs = true ↔ ∀ c ∈ cs, wfTree c.2 = true := by
  induction cs with
  | nil => simp [wfList]
  | cons hd tl ih => simp [wfList, ih]

/-- Python `Path.is_dir() and not Path.is_symlink()` on an already
enumerated child, assuming its stat succeeds. -/
def isDirNode : FSTree → Bool
  | .dir _ _ => true
  | _ => false

def isFileNode : FSTree → Bool
  | .file _ => true
  | _ => false

/-- Stat of an enumerated child: `none` when the stat call raises
(permission denied); otherwise whether it is a non-symlink directory. -/
def statDir : FSTree → Option Bool
  | .file true => none
  | .file false => some false
  | .link => some false
  | .dir _ _ => some true

/-- Python `str.strip()`. -/
def pyStrip (s : String) : String :=
  ⟨((s.data.dropWhile Char.isWhitespace).reverse.dropWhile Char.isWhitespace).reverse⟩

/-- Python `str.strip("/")`. -/
def stripSlashes (s : String) : String :=
  ⟨((s.data.dropWhile (· = '/')).reverse.dropWhile (· = '/')).reverse⟩

def splitSlashAux : List Char → List Char → List String
  | [], acc => [⟨acc.reverse⟩]
  | c :: rest, acc =>
    if c = '/' then (⟨acc.reverse⟩ : String) :: splitSlashAux rest []
    else splitSlashAux rest (c :: acc)

/-- Python `str.split("/")`. -/
def splitSlash (s : String) : List String := splitSlashAux s.data []

/-- Python `str.endswith(t)`. -/
def strEndsWith (s t : String) : Bool := t.data.isSuffixOf s.data

/-- Python `str.startswith(t)`. -/
def strStartsWith (s t : String) : Bool := t.data.isPrefixOf s.data

def strContainsChar (s : String) (c : Char) : Bool := s.data.contains c

/-- Render a component list back to a `/`-separated POSIX path string. -/
def joinSlash : List String → String
  | [] => ""
  | [x] => x
  | x :: rest => x ++ "/" ++ joinSlash rest

end NueFS

namespace NueFS

/-- A mount entry from nue.yaml (manifest.py `MountEntry`): raw source
string, dest string, and the exclude/include pathspecs. -/
structure MountEntry where
  source : String
  dest : String
  exclude : Pathspec
  includeSpec : Pathspec

/-- manifest.py `MountEntry._is_excluded`: match the name (with a
trailing slash for directories) against exclude, then include. -/
def isExcludedName (m : MountEntry) (name : String) (isDir : Bool) : Bool :=
  let path := if isDir then name ++ "/" else name
  psMatch m.exclude path && ! psMatch m.includeSpec path

/-- One pass of the loop body of `MountEntry._collapse_chain` over
`dir_path.iterdir()`: returns `none` when a child stat raises, otherwise
`(has_files, dirs)`.  The loop breaks at the first non-excluded
non-directory, so later children are then not inspected. -/
def collapseScan (m : MountEntry) : List (String × FSTree) → Option (Bool × List (String × FSTree))
  | [] => some (false, [])
  | (n, t) :: rest =>
    match statDir t with
    | none => none
    | some d =>
      if isExcludedName m n d then collapseScan m rest
      else if d then
        match collapseScan m rest with
        | none => none
        | some (hf, ds) => some (hf, (n, t) :: ds)
      else some (true, [])

/-- Result of `MountEntry._collapse_chain`: out of fuel, an OS error
escaping the loop, or the final `(dir_path, rel_name)`. -/
inductive CRes where
  | outOfFuel
  | ioErr
  | done (t : FSTree) (rel : List String)
deriving DecidableEq

/-- manifest.py `MountEntry._collapse_chain`, with an explicit bound on
the number of loop iterations.  While the current directory holds exactly
one non-excluded subdirectory and no non-excluded files, descend into it
and append its name to the accumulated relative name. -/
def collapseFuel (m : MountEntry) : Nat → FSTree → List String → CRes
  | 0, _, _ => .outOfFuel
  | fuel + 1, t, rel =>
    match t with
    | .dir true _ => .ioErr
    | .dir false cs =>
      match collapseScan m cs with
      | none => .ioErr
      | some (true, _) => .done t rel
      | some (false, [d]) => collapseFuel m fuel d.2 (rel ++ [d.1])
      | some (false, _) => .done t rel
    | t' => .done t' rel

/-- `_collapse_chain` with enough fuel for any finite tree. -/
def collapseChain (m : MountEntry) (t : FSTree) (rel : List String) : CRes :=
  collapseFuel m (depth t + 1) t rel

/-- manifest.py `MountEntry._resolve_source`: expand-contents flag from
the stripped raw source string. -/
def expandContents (m : MountEntry) : Bool :=
  let raw := pyStrip m.source
  strEndsWith raw "/" || raw == "." || raw == "./"

/-- The dest-derived virtual prefix, as components:
`self.dest.strip().strip("/")`. -/
def destComps (m : MountEntry) : List String :=
  let p := stripSlashes (pyStrip m.dest)
  if p == "" then [] else splitSlash p

/-- manifest.py `MountEntry._resolve_source`: the virtual prefix.  The
snapshot of the resolved source is `src` (`none` when it does not exist)
and `sourceName` is its basename. -/
def pfxOf (m : MountEntry) (src : Option FSTree) (sourceName : String) : List String :=
  if m.dest ≠ "" then destComps m
  else if expandContents m || (match src with
    | some s => isFileNode s
    | none => false) then []
  else [sourceName]

/-- A resolved manifest entry: backend path relative to the layer source
(`[]` is the source itself) and the directory flag. -/
structure MEntry where
  backend : List String
  isDir : Bool
deriving DecidableEq

/-- The expansion loop of `MountEntry._iter_entries` over
`source.iterdir()`: stat each child, apply `_is_excluded`, collapse
chains for directories.  Returns `none` when an OS error escapes. -/
def expandChildren (m : MountEntry) (pfx : List String) :
    List (String × FSTree) → Option (List (List String × MEntry))
  | [] => some []
  | (n, t) :: rest =>
    match statDir t with
    | none => none
    | some d =>
      if isExcludedName m n d then expandChildren m pfx rest
      else if d then
        match collapseChain m t [n] with
        | .outOfFuel => none
        | .ioErr => none
        | .done _ rel =>
          match expandChildren m pfx rest with
          | none => none
          | some es => some ((pfx ++ rel, ⟨rel, true⟩) :: es)
      else
        match expandChildren m pfx rest with
        | none => none
        | some es => some ((pfx ++ [n], ⟨[n], false⟩) :: es)

/-- manifest.py `MountEntry._iter_entries`.  A `.link` source (a symlink
at the source path itself) is outside the modelled scope and yields
nothing. -/
def iterEntries (m : MountEntry) (src : Option FSTree) (sourceName : String) :
    Option (List (List String × MEntry)) :=
  match src with
  | none => some []
  | some s =>
    let pfx := pfxOf m src sourceName
    match s with
    | .file _ =>
      let vp := if pfx ≠ [] then pfx else [sourceName]
      if isExcludedName m (joinSlash vp) false then some [] else some [(vp, ⟨[], false⟩)]
    | .link => some []
    | .dir derr cs =>
      if ! expandContents m then some [(pfx, ⟨[], true⟩)]
      else if derr then none
      else expandChildren m pfx cs

/-- Build a Python dict from an entry list: later insertions win. -/
def buildMap (l : List (List String × MEntry)) : List String → Option MEntry :=
  l.foldl (fun mp kv => fun k => if k = kv.1 then some kv.2 else mp k) (fun _ => none)

/-- manifest.py `MountEntry.resolve` as a map from virtual path
components to entries (`none` when resolution raises). -/
def resolveMap (m : MountEntry) (src : Option FSTree) (sourceName : String) :
    Option (List String → Option MEntry) :=
  (iterEntries m src sourceName).map buildMap

end NueFS

namespace NueFS

theorem collapseScan_mem {m : MountEntry} : ∀ {cs : List (String × FSTree)} {hf : Bool}
    {ds : List (String × FSTree)}, collapseScan m cs = some (hf, ds) → ∀ d ∈ ds, d ∈ cs := by
  intro cs
  induction cs with
  | nil =>
    intro hf ds h d hd
    simp [collapseScan] at h
    simp [h.2] at hd
  | cons hd tl ih =>
    intro hf ds h d hdm
    obtain ⟨n, t⟩ := hd
    rw [collapseScan] at h
    cases hstat : statDir t with
    | none => rw [hstat] at h; cases h
    | some b =>
      rw [hstat] at h
      by_cases hexc : isExcludedName m n b = true
      · simp [hexc] at h
        exact List.mem_cons_of_mem _ (ih h d hdm)
      · simp [hexc] at h
        by_cases hb : b = true
        · rw [if_pos hb] at h
          cases hrec : collapseScan m tl with
          | none => rw [hrec] at h; cases h
          | some p =>
            obtain ⟨hf', ds'⟩ := p
            rw [hrec] at h
            injection h with h1
            injection h1 with h2 h3
            subst h2; subst h3
            rcases List.mem_cons.mp hdm with h4 | h4
            · exact h4 ▸ List.mem_cons_self _ _
            · exact List.mem_cons_of_mem _ (ih hrec d h4)
        · rw [if_neg hb] at h
          injection h with h1
          injection h1 with h2 h3
          subst h3
          cases hdm

/-- CLAIM C10: single-child chain collapsing terminates on every finite
acyclic snapshot: the loop of `_collapse_chain` runs out of directory
depth before it runs out of a fuel budget of `depth t` iterations, since
each iteration descends into a strict non-symlink subdirectory. -/
theorem collapseFuel_terminates (m : MountEntry) :
    ∀ (fuel : Nat) (t : FSTree) (rel : List String), depth t < fuel →
      collapseFuel m fuel t rel ≠ .outOfFuel := by
  intro fuel
  induction fuel with
  | zero => intro t rel h; omega
  | succ fuel ih =>
    intro t rel h
    match t with
    | .file e => simp [collapseFuel]
    | .link => simp [collapseFuel]
    | .dir true cs => simp [collapseFuel]
    | .dir false cs =>
      rw [collapseFuel]
      cases hscan : collapseScan m cs with
      | none => simp
      | some p =>
        obtain ⟨hf, ds⟩ := p
        cases hf with
        | true => simp
        | false =>
          match ds with
          | [] => simp
          | [d] =>
            simp only
            refine ih d.2 (rel ++ [d.1]) ?_
            have hmem : d ∈ cs := collapseScan_mem hscan d (by simp)
            have h2 : depth d.2 ≤ depthList cs := by
              obtain ⟨n, u⟩ := d
              exact depth_le_of_mem hmem
            have h3 : depth (FSTree.dir false cs) = 1 + depthList cs := by rw [depth]
            omega
          | d1 :: d2 :: rest => simp

/-- The non-excluded-file and non-excluded-subdirectory tests of the
collapsing loop, as predicates on one enumerated child. -/
def isNEFile (m : MountEntry) (c : String × FSTree) : Bool :=
  !isDirNode c.2 && !isExcludedName m c.1 false

def isNEDir (m : MountEntry) (c : String × FSTree) : Bool :=
  isDirNode c.2 && !isExcludedName m c.1 true

theorem statDir_of_errFree {t : FSTree} (h : errFree t = true) :
    statDir t = some (isDirNode t) := by
  cases t with
  | file e => rw [errFree] at h; simp at h; subst h; rfl
  | link => rfl
  | dir e cs => rfl

/-- On an error-free listing, the scanning loop returns: `has_files` is
`any isNEFile`, and when no non-excluded file was found, `dirs` is the
filter of non-excluded subdirectories. -/
theorem collapseScan_errFree {m : MountEntry} : ∀ {cs : List (String × FSTree)},
    errFreeList cs = true →
    ∃ ds, collapseScan m cs = some (cs.any (isNEFile m), ds) ∧
      (cs.any (isNEFile m) = false → ds = cs.filter (isNEDir m)) := by
  intro cs
  induction cs with
  | nil => intro h; exact ⟨[], rfl, fun _ => rfl⟩
  | cons hd tl ih =>
    intro h
    obtain ⟨n, t⟩ := hd
    rw [errFreeList, Bool.and_eq_true] at h
    obtain ⟨ht, htl⟩ := h
    obtain ⟨ds, hds, hfil⟩ := ih htl
    rw [collapseScan, statDir_of_errFree ht]
    by_cases hexc : isExcludedName m n (isDirNode t) = true
    · cases hdir : isDirNode t with
      | true =>
        rw [hdir] at hexc
        have h1 : isNEFile m (n, t) = false := by
          simp [isNEFile, hdir]
        have h2 : isNEDir m (n, t) = false := by
          simp [isNEDir, hexc]
        refine ⟨ds, ?_, ?_⟩
        · simp only [hexc, if_true, List.any_cons, h1, Bool.false_or]
          exact hds
        · intro hany
          rw [List.filter_cons_of_neg (by simp [h2])]
          exact hfil (by simpa [h1] using hany)
      | false =>
        rw [hdir] at hexc
        have h1 : isNEFile m (n, t) = false := by
          simp [isNEFile, hexc]
        have h2 : isNEDir m (n, t) = false := by
          simp [isNEDir, hdir]
        refine ⟨ds, ?_, ?_⟩
        · simp only [hexc, if_true, List.any_cons, h1, Bool.false_or]
          exact hds
        · intro hany
          rw [List.filter_cons_of_neg (by simp [h2])]
          exact hfil (by simpa [h1] using hany)
    · replace hexc : isExcludedName m n (isDirNode t) = false := by
        simpa using hexc
      cases hdir : isDirNode t with
      | true =>
        rw [hdir] at hexc
        have h1 : isNEFile m (n, t) = false := by
          simp [isNEFile, hdir]
        have h2 : isNEDir m (n, t) = true := by
          simp [isNEDir, hdir, hexc]
        refine ⟨(n, t) :: ds, ?_, ?_⟩
        · simp only [hexc, hdir, if_false, if_true, hds, List.any_cons, h1, Bool.false_or]
          rfl
        · intro hany
          rw [List.filter_cons_of_pos (by simp [h2])]
          rw [hfil (by simpa [h1] using hany)]
      | false =>
        rw [hdir] at hexc
        have h1 : isNEFile m (n, t) = true := by
          simp [isNEFile, hdir, hexc]
        refine ⟨[], ?_, ?_⟩
        · simp only [hexc, hdir, if_false, List.any_cons, h1, Bool.true_or]
          rfl
        · intro hany
          simp [h1] at hany

end NueFS

namespace NueFS

theorem collapseFuel_mono (m : MountEntry) : ∀ (f : Nat) (t : FSTree) (rel : List String),
    collapseFuel m f t rel ≠ .outOfFuel →
    ∀ f', f ≤ f' → collapseFuel m f' t rel = collapseFuel m f t rel := by
  intro f
  induction f with
  | zero => intro t rel h; simp [collapseFuel] at h
  | succ f ih =>
    intro t rel h f' hle
    obtain ⟨f'', rfl⟩ : ∃ f'', f' = f'' + 1 := ⟨f' - 1, by omega⟩
    match t with
    | .file e => rfl
    | .link => rfl
    | .dir true cs => rfl
    | .dir false cs =>
      rw [collapseFuel] at h ⊢
      rw [collapseFuel]
      cases hscan : collapseScan m cs with
      | none => rfl
      | some p =>
        obtain ⟨hf, ds⟩ := p
        rw [hscan] at h
        cases hf with
        | true => rfl
        | false =>
          match ds with
          | [] => rfl
          | [d] =>
            simp only at h ⊢
            exact ih d.2 (rel ++ [d.1]) h f'' (by omega)
          | d1 :: d2 :: rest => rfl

theorem collapseChain_done {m : MountEntry} {t : FSTree} (rel : List String)
    (h : errFree t = true) : ∃ t' rel', collapseChain m t rel = .done t' rel' := by
  have key : ∀ (fuel : Nat) (t : FSTree) (rel : List String), errFree t = true →
      depth t < fuel → ∃ t' rel', collapseFuel m fuel t rel = .done t' rel' := by
    intro fuel
    induction fuel with
    | zero => intro t rel _ h2; omega
    | succ fuel ih =>
      intro t rel herr hd
      match t with
      | .file e => exact ⟨_, _, rfl⟩
      | .link => exact ⟨_, _, rfl⟩
      | .dir true cs => rw [errFree] at herr; simp at herr
      | .dir false cs =>
        have hlist : errFreeList cs = true := by
          rw [errFree, Bool.and_eq_true] at herr; exact herr.2
        obtain ⟨ds, hds, _⟩ := collapseScan_errFree (m := m) hlist
        cases hany : cs.any (isNEFile m) with
        | true =>
          rw [hany] at hds
          rw [collapseFuel, hds]
          exact ⟨_, _, rfl⟩
        | false =>
          rw [hany] at hds
          rw [collapseFuel, hds]
          match ds, hds with
          | [], hds => exact ⟨_, _, rfl⟩
          | [d], hds =>
            simp only
            have hmem : d ∈ cs := collapseScan_mem hds d (by simp)
            have herr' : errFree d.2 = true := by
              obtain ⟨n, u⟩ := d
              exact errFree_of_mem herr hmem
            have hdep : depth d.2 ≤ depthList cs := by
              obtain ⟨n, u⟩ := d
              exact depth_le_of_mem hmem
            have h3 : depth (FSTree.dir false cs) = 1 + depthList cs := by rw [depth]
            exact ih d.2 (rel ++ [d.1]) herr' (by omega)
          | d1 :: d2 :: rest, hds => exact ⟨_, _, rfl⟩
  exact key (depth t + 1) t rel h (by omega)

/-- The contribution of one enumerated child in the expansion loop of
`_iter_entries`: `none` when the child is excluded (the unreachable
non-`done` collapse results also map to `none`). -/
def childEntry (m : MountEntry) (pfx : List String) (c : String × FSTree) :
    Option (List String × MEntry) :=
  if isExcludedName m c.1 (isDirNode c.2) then none
  else if isDirNode c.2 then
    match collapseChain m c.2 [c.1] with
    | .done _ rel => some (pfx ++ rel, ⟨rel, true⟩)
    | _ => none
  else some (pfx ++ [c.1], ⟨[c.1], false⟩)

/-- On an error-free listing the expansion loop is the filterMap of the
per-child contribution. -/
theorem expandChildren_errFree {m : MountEntry} {pfx : List String} :
    ∀ {cs : List (String × FSTree)}, errFreeList cs = true →
    expandChildren m pfx cs = some (cs.filterMap (childEntry m pfx)) := by
  intro cs
  induction cs with
  | nil => intro h; rfl
  | cons hd tl ih =>
    intro h
    obtain ⟨n, t⟩ := hd
    rw [errFreeList, Bool.and_eq_true] at h
    obtain ⟨ht, htl⟩ := h
    replace ht : errFree t = true := ht
    have hstat : statDir t = some (isDirNode t) := statDir_of_errFree ht
    by_cases hexc : isExcludedName m n (isDirNode t) = true
    · have hce : childEntry m pfx (n, t) = none := by
        simp only [childEntry]
        rw [if_pos hexc]
      simp only [expandChildren, hstat, List.filterMap_cons, hce, hexc, if_true]
      exact ih htl
    · have hexc' : isExcludedName m n (isDirNode t) = false := by simpa using hexc
      cases hdir : isDirNode t with
      | true =>
        obtain ⟨t', rel', hcol⟩ := collapseChain_done (m := m) [n] ht
        rw [hdir] at hexc'
        have hce : childEntry m pfx (n, t) = some (pfx ++ rel', ⟨rel', true⟩) := by
          simp only [childEntry, hdir]
          simp [hexc', hcol]
        simp only [expandChildren, hstat, hdir, hexc', List.filterMap_cons, hce,
          Bool.false_eq_true, if_false, if_true, hcol, ih htl]
      | false =>
        rw [hdir] at hexc'
        have hce : childEntry m pfx (n, t) = some (pfx ++ [n], ⟨[n], false⟩) := by
          simp only [childEntry, hdir]
          simp [hexc']
        simp only [expandChildren, hstat, hdir, hexc', List.filterMap_cons, hce,
          Bool.false_eq_true, if_false, ih htl]

/-- CLAIM C10 (confirmed): single-child chain collapsing terminates for
every finite acyclic directory tree: with a fuel budget of one more than
the depth of the starting directory, `_collapse_chain` never exhausts its
fuel, because each loop iteration descends into a strict non-symlink
subdirectory of the current directory. -/
theorem claim_C10_collapse_terminates :
    ∀ (m : MountEntry) (t : FSTree) (rel : List String),
      collapseChain m t rel ≠ CRes.outOfFuel :=
  fun m t rel => collapseFuel_terminates m (depth t + 1) t rel (by omega)

/-- CLAIM C2 (counterexample): the claim fails on the code in two ways.
With `source = "libs"` (no trailing slash) and `dest = "vendor"`, the
single directory entry is registered at `vendor`, not at
`vendor/libs = target/basename(source)`.  And with `source = "."` (which
does not end with `/` yet resolves to an existing directory), the code
expands the directory contents instead of registering a single entry. -/
theorem claim_C2_counterexample :
    (iterEntries ⟨"libs", "vendor", [], []⟩
        (some (.dir false [("a.txt", .file false)])) "libs" =
      some [(["vendor"], ⟨[], true⟩)]) ∧
    (iterEntries ⟨".", "", [], []⟩
        (some (.dir false [("a.txt", .file false)])) "x" =
      some [(["a.txt"], ⟨["a.txt"], false⟩)]) :=
  ⟨rfl, rfl⟩

/-- CLAIM C2 (amended): when the stripped source string ends with `/` or
is `.` or `./`, compilation expands the direct children of the source
directory under the target prefix (each non-excluded child contributing
its own entry); otherwise, when the source resolves to an existing
directory, compilation registers exactly one directory entry for the
source itself, at the trimmed dest (when dest is non-empty) or at
`basename(source)` (when the dest is empty). -/
theorem claim_C2_trailing_slash :
    ∀ (m : MountEntry) (e : Bool) (cs : List (String × FSTree)) (name : String),
      (expandContents m = false →
        iterEntries m (some (.dir e cs)) name =
          some [(pfxOf m (some (.dir e cs)) name, ⟨[], true⟩)] ∧
        pfxOf m (some (.dir e cs)) name =
          (if m.dest ≠ "" then destComps m else [name])) ∧
      (expandContents m = true → errFree (.dir e cs) = true →
        iterEntries m (some (.dir e cs)) name =
          some (cs.filterMap (childEntry m (pfxOf m (some (.dir e cs)) name)))) := by
  intro m e cs name
  constructor
  · intro hexp
    constructor
    · simp only [iterEntries, hexp, Bool.not_false, if_true]
    · rw [pfxOf]
      by_cases hd : m.dest ≠ ""
      · rw [if_pos hd, if_pos hd]
      · rw [if_neg hd, if_neg hd]
        rw [if_neg (by simp [hexp, isFileNode])]
  · intro hexp herr
    have he : e = false := by
      rw [errFree, Bool.and_eq_true] at herr
      simpa using herr.1
    subst he
    have hlist : errFreeList cs = true := by
      rw [errFree, Bool.and_eq_true] at herr; exact herr.2
    simp only [iterEntries, hexp, Bool.not_true, Bool.false_eq_true, if_false]
    exact expandChildren_errFree hlist

/-- Witness for C2 (amended), at a directory source without trailing
slash and empty dest. -/
theorem claim_C2_trailing_slash_witness :
    expandContents ⟨"libs", "", [], []⟩ = false ∧
    iterEntries ⟨"libs", "", [], []⟩ (some (.dir false [("a.txt", .file false)])) "libs" =
      some [(pfxOf ⟨"libs", "", [], []⟩
        (some (.dir false [("a.txt", .file false)])) "libs", ⟨[], true⟩)] :=
  ⟨by decide, ((claim_C2_trailing_slash ⟨"libs", "", [], []⟩ false
    [("a.txt", .file false)] "libs").1 (by decide)).1⟩

end NueFS

namespace NueFS

/-- lockfile.py `SKIP_DIRS`. -/
def SKIP_DIRS : List String := [".git", ".pixi", "node_modules", "__pycache__", ".venv", "target"]

/-- lockfile.py `Lock._apply_layer.is_excluded`: nothing is excluded when
the exclude spec is empty; for directories both the bare relative path
and the slash-suffixed form are tried; an include match re-admits. -/
def lockIsExcluded (exclude includeSpec : Pathspec) (rel : List String) (isDir : Bool) : Bool :=
  let paths : List String :=
    if isDir then [joinSlash rel, joinSlash rel ++ "/"] else [joinSlash rel]
  if exclude.isEmpty then false
  else if paths.any (psMatch exclude) then
    if !includeSpec.isEmpty && paths.any (psMatch includeSpec) then false else true
  else false

/-- A virtual-path-indexed entry map (a Python dict). -/
abbrev VMap := List String → Option MEntry

def emptyVMap : VMap := fun _ => none

def vinsert (mp : VMap) (k : List String) (e : MEntry) : VMap :=
  fun k' => if k' = k then some e else mp k'

/-- The in-place pruning of `dirnames` in `Lock._apply_layer`'s walk:
keep non-skip, non-excluded directory children. -/
def prunedDirs (exclude includeSpec : Pathspec) (relDir : List String)
    (cs : List (String × FSTree)) : List (String × FSTree) :=
  cs.filter (fun c => isDirNode c.2 && !SKIP_DIRS.contains c.1 &&
    !lockIsExcluded exclude includeSpec (relDir ++ [c.1]) true)

/-- The `filenames` loop of `Lock._apply_layer`: for each non-directory
child, skip it when excluded, then stat it; a stat error
(`PermissionError`/`OSError`) skips the child. -/
def lockFileEntries (exclude includeSpec : Pathspec) (relDir : List String) :
    List (String × FSTree) → List (List String × Bool)
  | [] => []
  | (n, t) :: rest =>
    if isDirNode t then lockFileEntries exclude includeSpec relDir rest
    else if lockIsExcluded exclude includeSpec (relDir ++ [n]) false then
      lockFileEntries exclude includeSpec relDir rest
    else match statDir t with
      | none => lockFileEntries exclude includeSpec relDir rest
      | some d => (relDir ++ [n], d) :: lockFileEntries exclude includeSpec relDir rest

/-- The `os.walk` of `Lock._apply_layer` as a list of
`(relative path, is_dir)` registrations, top-down: the pruned directory
children, then the files, then the recursive walks of the pruned
directories (a directory whose listing raises is registered but not
descended into, as `os.walk` with the default `onerror` does). -/
def lockWalkList (exclude includeSpec : Pathspec) :
    Nat → List String → List (String × FSTree) → List (List String × Bool)
  | 0, _, _ => []
  | fuel + 1, relDir, cs =>
    (prunedDirs exclude includeSpec relDir cs).map (fun c => (relDir ++ [c.1], true))
      ++ lockFileEntries exclude includeSpec relDir cs
      ++ (prunedDirs exclude includeSpec relDir cs).flatMap (fun c =>
          match c.2 with
          | .dir false ccs => lockWalkList exclude includeSpec fuel (relDir ++ [c.1]) ccs
          | _ => [])

/-- Register a walk's entries into the dict: virtual path is the target
components followed by the relative path; backend is the source base
followed by the relative path. -/
def applyEntriesList (mp : VMap) (targetC base : List String)
    (l : List (List String × Bool)) : VMap :=
  l.foldl (fun mp kv => vinsert mp (targetC ++ kv.1) ⟨base ++ kv.1, kv.2⟩) mp

/-- The target normalization of `Lock._apply_layer`: `None`/empty or
whitespace-only targets mean root (`"."`). -/
def lockTarget (target : String) : String :=
  if pyStrip target == "" then "." else pyStrip target

/-- Target components: empty for root. -/
def lockTargetComps (target : String) : List String :=
  if lockTarget target == "." then [] else splitSlash (lockTarget target)

/-- lockfile.py `Lock._apply_layer`.  `base` is the resolved absolute
source path (as components), `sourceName` its basename, `src` the
snapshot at the source (`none` when it does not exist; a symlink source
is outside the modelled scope). -/
def lockApplyLayer (entries : VMap) (base : List String) (src : Option FSTree)
    (sourceName : String) (target : String)
    (exclude includeSpec : Pathspec) : VMap :=
  match src with
  | some (.file _) =>
    if lockIsExcluded exclude includeSpec [sourceName] false then entries
    else vinsert entries
      (if lockTarget target == "." then [sourceName] else lockTargetComps target)
      ⟨base, false⟩
  | none => entries
  | some .link => entries
  | some (.dir derr cs) =>
    if derr then
      (if lockTarget target == "." then entries
       else vinsert entries (lockTargetComps target) ⟨base, true⟩)
    else applyEntriesList
      (if lockTarget target == "." then entries
       else vinsert entries (lockTargetComps target) ⟨base, true⟩)
      (lockTargetComps target) base
      (lockWalkList exclude includeSpec (1 + depthList cs) [] cs)

/-- CLAIM C1 (counterexample): in `Lock._apply_layer` a later layer's
directory entry unconditionally overwrites an earlier layer's directory
entry at the same virtual path.  Layers `L1 = (/src1, "v")` then
`L2 = (/src2, "v")` both register the directory virtual path `v`; the
compiled map holds `L2`'s backend `/src2`, not `L1`'s `/src1` as the
claim requires for the directory-over-directory case. -/
theorem claim_C1_counterexample :
    (lockApplyLayer (lockApplyLayer emptyVMap ["src1"]
        (some (.dir false [("x.txt", .file false)])) "A" "v" [] [])
      ["src2"] (some (.dir false [("y.txt", .file false)])) "B" "v" [] []) ["v"] =
      some ⟨["src2"], true⟩ ∧
    (lockApplyLayer emptyVMap ["src1"]
        (some (.dir false [("x.txt", .file false)])) "A" "v" [] []) ["v"] =
      some ⟨["src1"], true⟩ :=
  ⟨rfl, rfl⟩

/-- CLAIM C7 (counterexample): `MountEntry._iter_entries` has no
per-child error handling: with children `good.txt` and `bad.txt` where
stat of `bad.txt` raises, the whole layer resolution raises (`none`)
instead of skipping just `bad.txt`; without the erroring child,
`good.txt` is registered. -/
theorem claim_C7_counterexample :
    iterEntries ⟨"./", "", [], []⟩
      (some (.dir false [("good.txt", .file false), ("bad.txt", .file true)])) "x" =
      none ∧
    iterEntries ⟨"./", "", [], []⟩
      (some (.dir false [("good.txt", .file false)])) "x" =
      some [(["good.txt"], ⟨["good.txt"], false⟩)] :=
  ⟨rfl, rfl⟩

mutual

def eraseErrFiles : FSTree → FSTree
  | .file e => .file e
  | .link => .link
  | .dir e cs => .dir e (eraseErrList cs)

def eraseErrList : List (String × FSTree) → List (String × FSTree)
  | [] => []
  | (_, .file true) :: rest => eraseErrList rest
  | (n, t) :: rest => (n, eraseErrFiles t) :: eraseErrList rest

end

theorem isDirNode_eraseErr (t : FSTree) : isDirNode (eraseErrFiles t) = isDirNode t := by
  cases t with
  | file e => cases e <;> rfl
  | link => rfl
  | dir e cs => rfl

theorem statDir_eraseErr (t : FSTree) : statDir (eraseErrFiles t) = statDir t := by
  cases t with
  | file e => cases e <;> rfl
  | link => rfl
  | dir e cs => rfl

theorem eraseErrList_cons_file_true (n : String) (rest : List (String × FSTree)) :
    eraseErrList ((n, .file true) :: rest) = eraseErrList rest := rfl

theorem eraseErrList_cons_other {t : FSTree} (h : t ≠ .file true)
    (n : String) (rest : List (String × FSTree)) :
    eraseErrList ((n, t) :: rest) = (n, eraseErrFiles t) :: eraseErrList rest := by
  cases t with
  | file e =>
    cases e with
    | true => exact absurd rfl h
    | false => rfl
  | link => rfl
  | dir e cs => rfl

theorem depthList_eraseErrList : ∀ cs : List (String × FSTree),
    (∀ n t, (n, t) ∈ cs → depth (eraseErrFiles t) = depth t) →
    depthList (eraseErrList cs) = depthList cs := by
  intro cs
  induction cs with
  | nil => intro _; rfl
  | cons hd tl ih =>
    intro hmem
    obtain ⟨n, t⟩ := hd
    have ihtl := ih (fun m u hm => hmem m u (List.mem_cons_of_mem _ hm))
    by_cases hft : t = FSTree.file true
    · subst hft
      rw [eraseErrList_cons_file_true, ihtl, depthList]
      have : depth (FSTree.file true) = 0 := rfl
      rw [this]
      omega
    · rw [eraseErrList_cons_other hft, depthList, depthList, ihtl,
        hmem n t (by simp)]

theorem depth_eraseErr : ∀ t, depth (eraseErrFiles t) = depth t := by
  intro t
  induction t using FSTree.myInduct with
  | hfile e => cases e <;> rfl
  | hlink => rfl
  | hdir e cs ih =>
    have : eraseErrFiles (FSTree.dir e cs) = .dir e (eraseErrList cs) := rfl
    rw [this, depth, depth, depthList_eraseErrList cs ih]

theorem prunedDirs_eraseErrList (exclude includeSpec : Pathspec) (relDir : List String) :
    ∀ cs : List (String × FSTree),
    prunedDirs exclude includeSpec relDir (eraseErrList cs) =
      (prunedDirs exclude includeSpec relDir cs).map (fun c => (c.1, eraseErrFiles c.2)) := by
  intro cs
  induction cs with
  | nil => rfl
  | cons hd tl ih =>
    obtain ⟨n, t⟩ := hd
    by_cases hft : t = FSTree.file true
    · subst hft
      rw [eraseErrList_cons_file_true]
      rw [ih]
      have : prunedDirs exclude includeSpec relDir ((n, FSTree.file true) :: tl) =
          prunedDirs exclude includeSpec relDir tl := by
        rw [prunedDirs, prunedDirs, List.filter_cons_of_neg]
        simp [isDirNode]
      rw [this]
    · rw [eraseErrList_cons_other hft]
      rw [prunedDirs, prunedDirs, List.filter_cons, List.filter_cons]
      have hiso : isDirNode (eraseErrFiles t) = isDirNode t := isDirNode_eraseErr t
      by_cases hkeep : (isDirNode t && !SKIP_DIRS.contains n &&
          !lockIsExcluded exclude includeSpec (relDir ++ [n]) true) = true
      · simp only [hiso, hkeep, if_true, List.map_cons]
        rw [prunedDirs] at ih
        rw [ih]
        rfl
      · simp only [hiso, hkeep, if_false]
        rw [prunedDirs] at ih
        exact ih

theorem lockFileEntries_eraseErrList (exclude includeSpec : Pathspec) (relDir : List String) :
    ∀ cs : List (String × FSTree),
    lockFileEntries exclude includeSpec relDir (eraseErrList cs) =
      lockFileEntries exclude includeSpec relDir cs := by
  intro cs
  induction cs with
  | nil => rfl
  | cons hd tl ih =>
    obtain ⟨n, t⟩ := hd
    by_cases hft : t = FSTree.file true
    · subst hft
      rw [eraseErrList_cons_file_true, ih, lockFileEntries]
      have h1 : isDirNode (FSTree.file true) = false := rfl
      rw [h1]
      by_cases hexc : lockIsExcluded exclude includeSpec (relDir ++ [n]) false = true
      · simp only [Bool.false_eq_true, if_false, hexc, if_true]
      · simp only [Bool.false_eq_true, if_false, hexc]
        have h2 : statDir (FSTree.file true) = none := rfl
        rw [h2]
    · rw [eraseErrList_cons_other hft, lockFileEntries, lockFileEntries,
        isDirNode_eraseErr t, statDir_eraseErr t, ih]

theorem lockWalkList_eraseErrList (exclude includeSpec : Pathspec) :
    ∀ (fuel : Nat) (relDir : List String) (cs : List (String × FSTree)),
    lockWalkList exclude includeSpec fuel relDir (eraseErrList cs) =
      lockWalkList exclude includeSpec fuel relDir cs := by
  intro fuel
  induction fuel with
  | zero => intro relDir cs; rfl
  | succ fuel ih =>
    intro relDir cs
    rw [lockWalkList, lockWalkList, prunedDirs_eraseErrList,
      lockFileEntries_eraseErrList, List.map_map, List.flatMap_map]
    have hmap : ∀ c : String × FSTree,
        ((fun c : String × FSTree => (relDir ++ [c.1], true)) ∘
          (fun c : String × FSTree => (c.1, eraseErrFiles c.2))) c =
        (fun c : String × FSTree => (relDir ++ [c.1], true)) c := fun c => rfl
    rw [List.map_congr_left (fun c _ => hmap c)]
    have hbind : ∀ c : String × FSTree,
        (fun c : String × FSTree => match c.2 with
          | .dir false ccs => lockWalkList exclude includeSpec fuel (relDir ++ [c.1]) ccs
          | _ => ([] : List (List String × Bool)))
          ((fun c : String × FSTree => (c.1, eraseErrFiles c.2)) c) =
        (fun c : String × FSTree => match c.2 with
          | .dir false ccs => lockWalkList exclude includeSpec fuel (relDir ++ [c.1]) ccs
          | _ => []) c := by
      intro c
      obtain ⟨n, t⟩ := c
      cases t with
      | file e => cases e <;> rfl
      | link => rfl
      | dir e ccs =>
        cases e with
        | true => rfl
        | false =>
          have : eraseErrFiles (FSTree.dir false ccs) = .dir false (eraseErrList ccs) := rfl
          simp only [this]
          exact ih (relDir ++ [n]) ccs
    rw [List.flatMap_congr (fun c _ => hbind c)]

/-- CLAIM C7 (amended): in `Lock._apply_layer` a stat error on a child
skips exactly that child: compiling a directory layer over a snapshot
equals compiling it over the snapshot with all stat-erroring file
children removed, so every other child is registered identically and
compilation (a total function) never fails.  In contrast
`MountEntry._iter_entries` fails the whole layer on any child read error
(see the counterexample). -/
theorem claim_C7_lock_skips_err_children :
    ∀ (entries : VMap) (base : List String) (e : Bool) (cs : List (String × FSTree))
      (sourceName target : String) (exclude includeSpec : Pathspec),
    lockApplyLayer entries base (some (.dir e (eraseErrList cs))) sourceName target
        exclude includeSpec =
      lockApplyLayer entries base (some (.dir e cs)) sourceName target
        exclude includeSpec := by
  intro entries base e cs sourceName target exclude includeSpec
  cases e with
  | true => rfl
  | false =>
    have h1 : lockApplyLayer entries base (some (.dir false (eraseErrList cs)))
        sourceName target exclude includeSpec =
      applyEntriesList
        (if lockTarget target == "." then entries
         else vinsert entries (lockTargetComps target) ⟨base, true⟩)
        (lockTargetComps target) base
        (lockWalkList exclude includeSpec (1 + depthList (eraseErrList cs)) []
          (eraseErrList cs)) := rfl
    have h2 : lockApplyLayer entries base (some (.dir false cs))
        sourceName target exclude includeSpec =
      applyEntriesList
        (if lockTarget target == "." then entries
         else vinsert entries (lockTargetComps target) ⟨base, true⟩)
        (lockTargetComps target) base
        (lockWalkList exclude includeSpec (1 + depthList cs) [] cs) := rfl
    rw [h1, h2, depthList_eraseErrList cs (fun n t _ => depth_eraseErr t),
      lockWalkList_eraseErrList]

end NueFS

namespace NueFS

theorem vinsert_apply (mp : VMap) (k : List String) (e : MEntry) (k' : List String) :
    vinsert mp k e k' = if k' = k then some e else mp k' := rfl

/-- builder.py `ManifestBuilder.apply_layer`: git inclusion is
auto-enabled when the target is `.git` or lies under `.git/`. -/
def includeGit (target : String) : Bool :=
  target == ".git" || strStartsWith target ".git/"

/-- builder.py `source.rglob("*")`: every strict descendant of the
source with its relative path and directory flag, with an explicit bound
on the descent depth.  Stat errors are outside the modelled scope (the
builder has no error handling); theorems about the builder assume
error-free snapshots. -/
def builderWalk : Nat → List String → List (String × FSTree) → List (List String × Bool)
  | 0, _, _ => []
  | fuel + 1, rel, cs =>
    cs.flatMap (fun c => (rel ++ [c.1], isDirNode c.2) ::
      (match c.2 with
       | .dir _ ccs => builderWalk fuel (rel ++ [c.1]) ccs
       | _ => []))

/-- builder.py target components (`pathlib.PurePosixPath(target) / rel`);
`"."` is the root. -/
def builderTargetComps (target : String) : List String :=
  if target == "." then [] else splitSlash target

/-- The two `.git` skip tests of `ManifestBuilder.apply_layer`:
`".git" in path.parts` over the absolute backend path, and a virtual
path equal to `.git` or under `.git/`. -/
def builderGitSkip (target : String) (base rel : List String) : Bool :=
  (!includeGit target && (base.contains ".git" || rel.contains ".git")) ||
  (!includeGit target && (builderTargetComps target ++ rel).head? == some ".git")

/-- Whether an existing entry blocks a new one: builder.py merge rule
`directories don't override directories`. -/
def dirOverDir : Option MEntry → MEntry → Bool
  | some old, e => old.isDir && e.isDir
  | none, _ => false

/-- Guarded dict insertion implementing the builder merge rule (also the
keep-existing-directory rule for the target entry, whose new entry is
always a directory). -/
def minsert (mp : VMap) (k : List String) (e : MEntry) : VMap :=
  if dirOverDir (mp k) e then mp else vinsert mp k e

/-- builder.py `ManifestBuilder.apply_layer`.  `base` is the resolved
absolute source path as components, `sourceName` its basename. -/
def builderApplyLayer (entries : VMap) (base : List String) (src : Option FSTree)
    (sourceName : String) (target : String) : VMap :=
  match src with
  | some (.file _) =>
    vinsert entries (if target == "." then [sourceName] else builderTargetComps target)
      ⟨base, false⟩
  | none => entries
  | some .link => entries
  | some (.dir _ cs) =>
    (builderWalk (1 + depthList cs) [] cs).foldl (fun mp kv =>
      if builderGitSkip target base kv.1 then mp
      else minsert mp (builderTargetComps target ++ kv.1) ⟨base ++ kv.1, kv.2⟩)
      (if target == "." then entries
       else minsert entries (builderTargetComps target) ⟨base, true⟩)

/-- The registrations of one builder layer as an explicit list. -/
def builderLayerList (base : List String) (src : Option FSTree)
    (sourceName target : String) : List (List String × MEntry) :=
  match src with
  | some (.file _) =>
    [(if target == "." then [sourceName] else builderTargetComps target, ⟨base, false⟩)]
  | none => []
  | some .link => []
  | some (.dir _ cs) =>
    (if target == "." then [] else [(builderTargetComps target, ⟨base, true⟩)]) ++
    (builderWalk (1 + depthList cs) [] cs).filterMap (fun kv =>
      if builderGitSkip target base kv.1 then none
      else some (builderTargetComps target ++ kv.1, ⟨base ++ kv.1, kv.2⟩))

def foldMinsert (st : VMap) (l : List (List String × MEntry)) : VMap :=
  l.foldl (fun mp kv => minsert mp kv.1 kv.2) st

theorem foldMinsert_nil (st : VMap) : foldMinsert st [] = st := rfl

theorem foldMinsert_cons (st : VMap) (hd : List String × MEntry)
    (tl : List (List String × MEntry)) :
    foldMinsert st (hd :: tl) = foldMinsert (minsert st hd.1 hd.2) tl := rfl

theorem minsert_not_dir (mp : VMap) (k : List String) (e : MEntry) (h : e.isDir = false) :
    minsert mp k e = vinsert mp k e := by
  rw [minsert]
  have : dirOverDir (mp k) e = false := by
    cases hmp : mp k with
    | none => rfl
    | some old => rw [dirOverDir, h, Bool.and_false]
  rw [this]
  simp

theorem foldl_skip_as_filterMap (p : List String × Bool → Bool)
    (f : List String × Bool → List String × MEntry) :
    ∀ (l : List (List String × Bool)) (st : VMap),
    l.foldl (fun mp kv => if p kv then mp else minsert mp (f kv).1 (f kv).2) st =
      foldMinsert st (l.filterMap (fun kv => if p kv then none else some (f kv))) := by
  intro l
  induction l with
  | nil => intro st; rfl
  | cons hd tl ih =>
    intro st
    rw [List.foldl_cons, List.filterMap_cons]
    by_cases hp : p hd = true
    · rw [if_pos hp, if_pos hp, ih]
    · rw [if_neg hp, if_neg hp, ih, foldMinsert_cons]

/-- `builderApplyLayer` is the fold of the merge-insert over the layer's
registration list. -/
theorem builderApplyLayer_eq_fold (entries : VMap) (base : List String)
    (src : Option FSTree) (sourceName target : String) :
    builderApplyLayer entries base src sourceName target =
      foldMinsert entries (builderLayerList base src sourceName target) := by
  match src with
  | none => rfl
  | some .link => rfl
  | some (.file e) =>
    rw [builderApplyLayer, builderLayerList, foldMinsert_cons, foldMinsert_nil,
      minsert_not_dir _ _ _ rfl]
  | some (.dir e cs) =>
    rw [builderApplyLayer, builderLayerList,
      foldl_skip_as_filterMap (fun kv => builderGitSkip target base kv.1)
        (fun kv => (builderTargetComps target ++ kv.1, ⟨base ++ kv.1, kv.2⟩))]
    by_cases ht : (target == ".") = true
    · rw [if_pos ht, if_pos ht, List.nil_append]
    · rw [if_neg ht, if_neg ht, List.cons_append, List.nil_append, foldMinsert_cons]

theorem minsert_lookup_other {mp : VMap} {k k' : List String} {e : MEntry}
    (h : k' ≠ k) : minsert mp k e k' = mp k' := by
  rw [minsert]
  by_cases hdd : dirOverDir (mp k) e = true
  · rw [if_pos hdd]
  · rw [if_neg hdd, vinsert_apply, if_neg h]

/-- Merging a new entry over an optional old one. -/
def mergeOld (old : Option MEntry) (e : MEntry) : Option MEntry :=
  if dirOverDir old e then old else some e

theorem minsert_lookup_self (mp : VMap) (k : List String) (e : MEntry) :
    minsert mp k e k = mergeOld (mp k) e := by
  rw [minsert, mergeOld]
  by_cases hdd : dirOverDir (mp k) e = true
  · rw [if_pos hdd, if_pos hdd]
  · rw [if_neg hdd, if_neg hdd, vinsert_apply, if_pos rfl]

theorem foldMinsert_lookup_notmem {k : List String} :
    ∀ {l : List (List String × MEntry)} (st : VMap), k ∉ l.map Prod.fst →
    foldMinsert st l k = st k := by
  intro l
  induction l with
  | nil => intro st _; rfl
  | cons hd tl ih =>
    intro st hk
    rw [List.map_cons] at hk
    have h1 : k ≠ hd.1 := fun h => hk (h ▸ List.mem_cons_self _ _)
    have h2 : k ∉ tl.map Prod.fst := fun h => hk (List.mem_cons_of_mem _ h)
    rw [foldMinsert_cons, ih _ h2, minsert_lookup_other h1]

theorem foldMinsert_lookup_mem {k : List String} {e : MEntry} :
    ∀ {l : List (List String × MEntry)} (st : VMap),
    (l.map Prod.fst).Nodup → (k, e) ∈ l →
    foldMinsert st l k = mergeOld (st k) e := by
  intro l
  induction l with
  | nil => intro st _ h; cases h
  | cons hd tl ih =>
    intro st hnd hmem
    rw [List.map_cons, List.nodup_cons] at hnd
    obtain ⟨hnotin, hndtl⟩ := hnd
    rw [foldMinsert_cons]
    rcases List.mem_cons.mp hmem with h1 | h1
    · have hk : hd.1 = k := by rw [← h1]
      have he : hd.2 = e := by rw [← h1]
      subst hk
      have hnot : hd.1 ∉ tl.map Prod.fst := hnotin
      rw [foldMinsert_lookup_notmem _ hnot, minsert_lookup_self st hd.1 hd.2, he]
    · have hk : k ≠ hd.1 := by
        intro h
        apply hnotin
        rw [← h]
        exact List.mem_map_of_mem Prod.fst h1
      rw [ih _ hndtl h1, minsert_lookup_other hk]

theorem foldMinsert_empty_some {l : List (List String × MEntry)} {k : List String}
    {e : MEntry} (hnd : (l.map Prod.fst).Nodup)
    (h : foldMinsert emptyVMap l k = some e) : (k, e) ∈ l := by
  by_cases hk : k ∈ l.map Prod.fst
  · obtain ⟨kv, hkv, hfst⟩ := List.mem_map.mp hk
    obtain ⟨k', e'⟩ := kv
    have hk' : k' = k := hfst
    subst hk'
    rw [foldMinsert_lookup_mem emptyVMap hnd hkv] at h
    have : mergeOld (emptyVMap k') e' = some e' := by
      rw [mergeOld]
      have : dirOverDir (emptyVMap k') e' = false := rfl
      rw [this]
      simp
    rw [this] at h
    injection h with h
    rw [← h]
    exact hkv
  · rw [foldMinsert_lookup_notmem _ hk] at h
    cases h

end NueFS

namespace NueFS

theorem builderWalk_succ_cons (fuel : Nat) (rel : List String) (c : String × FSTree)
    (tl : List (String × FSTree)) :
    builderWalk (fuel + 1) rel (c :: tl) =
      ((rel ++ [c.1], isDirNode c.2) ::
        (match c.2 with
         | FSTree.dir _ ccs => builderWalk fuel (rel ++ [c.1]) ccs
         | _ => []))
      ++ builderWalk (fuel + 1) rel tl := by
  rw [builderWalk, builderWalk, List.flatMap_cons]

theorem builderWalk_shape : ∀ (fuel : Nat) (cs : List (String × FSTree))
    (rel k : List String) (d : Bool),
    (k, d) ∈ builderWalk fuel rel cs →
    ∃ n s, k = rel ++ n :: s ∧ n ∈ cs.map Prod.fst := by
  intro fuel
  induction fuel with
  | zero => intro cs rel k d h; simp [builderWalk] at h
  | succ fuel ih =>
    intro cs rel k d h
    rw [builderWalk] at h
    obtain ⟨c, hc, hmem⟩ := List.mem_flatMap.mp h
    obtain ⟨n, u⟩ := c
    rcases List.mem_cons.mp hmem with h1 | h1
    · have ha : k = rel ++ [n] := congrArg Prod.fst h1
      exact ⟨n, [], ha, List.mem_map_of_mem Prod.fst hc⟩
    · cases u with
      | file e => cases h1
      | link => cases h1
      | dir e ccs =>
        replace h1 : (k, d) ∈ builderWalk fuel (rel ++ [n]) ccs := h1
        obtain ⟨n', s', hk, _⟩ := ih ccs (rel ++ [n]) k d h1
        refine ⟨n, n' :: s', ?_, List.mem_map_of_mem Prod.fst hc⟩
        rw [hk, List.append_assoc]
        rfl

theorem builderWalk_keys_nodup : ∀ (fuel : Nat) (cs : List (String × FSTree)),
    (cs.map Prod.fst).Nodup → (∀ c ∈ cs, wfTree c.2 = true) →
    ∀ rel, ((builderWalk fuel rel cs).map Prod.fst).Nodup := by
  intro fuel
  induction fuel with
  | zero => intro cs _ _ rel; simp [builderWalk]
  | succ fuel ih =>
    intro cs
    induction cs with
    | nil => intro _ _ rel; simp [builderWalk]
    | cons hd tl ihtl =>
      intro hnd hwf rel
      obtain ⟨n, u⟩ := hd
      rw [List.map_cons, List.nodup_cons] at hnd
      obtain ⟨hnotin, hndtl⟩ := hnd
      rw [builderWalk_succ_cons, List.map_append, List.map_cons, List.cons_append,
        List.nodup_cons]
      have hsubshape : ∀ k d, (k, d) ∈ (match (n, u).2 with
          | FSTree.dir _ ccs => builderWalk fuel (rel ++ [(n, u).1]) ccs
          | _ => ([] : List (List String × Bool))) →
          ∃ n' s', k = (rel ++ [n]) ++ n' :: s' := by
        intro k d hk
        cases u with
        | file e => cases hk
        | link => cases hk
        | dir e ccs =>
          replace hk : (k, d) ∈ builderWalk fuel (rel ++ [n]) ccs := hk
          obtain ⟨n', s', hk', _⟩ := builderWalk_shape fuel ccs (rel ++ [n]) k d hk
          exact ⟨n', s', hk'⟩
      have htlshape : ∀ k d, (k, d) ∈ builderWalk (fuel + 1) rel tl →
          ∃ n' s', k = rel ++ n' :: s' ∧ n' ∈ tl.map Prod.fst :=
        fun k d hk => builderWalk_shape (fuel + 1) tl rel k d hk
      constructor
      · intro hmem
        rw [List.mem_append] at hmem
        rcases hmem with h2 | h2
        · obtain ⟨⟨k, d⟩, hkd, hfst⟩ := List.mem_map.mp h2
          obtain ⟨n', s', hk'⟩ := hsubshape k d hkd
          have : k = rel ++ [(n, u).1] := hfst
          rw [this] at hk'
          have hlen := congrArg List.length hk'
          simp at hlen
        · obtain ⟨⟨k, d⟩, hkd, hfst⟩ := List.mem_map.mp h2
          obtain ⟨n', s', hk', hn'⟩ := htlshape k d hkd
          have : k = rel ++ [(n, u).1] := hfst
          rw [this] at hk'
          have := List.append_cancel_left hk'
          injection this with ha hb
          rw [← ha] at hn'
          exact hnotin hn'
      · refine List.Nodup.append ?_ ?_ ?_
        · cases u with
          | file e => simp
          | link => simp
          | dir e ccs =>
            have hwfu : wfTree (FSTree.dir e ccs) = true := hwf (n, .dir e ccs) (by simp)
            rw [wfTree, Bool.and_eq_true] at hwfu
            obtain ⟨hccsnames, hccswf⟩ := hwfu
            rw [wfList_iff] at hccswf
            exact ih ccs (by simpa using hccsnames) hccswf (rel ++ [n])
        · exact ihtl hndtl (fun c hc => hwf c (List.mem_cons_of_mem _ hc)) rel
        · intro k h2 h3
          obtain ⟨⟨k1, d1⟩, hkd1, hfst1⟩ := List.mem_map.mp h2
          obtain ⟨⟨k2, d2⟩, hkd2, hfst2⟩ := List.mem_map.mp h3
          obtain ⟨n1, s1, hk1⟩ := hsubshape k1 d1 hkd1
          obtain ⟨n2, s2, hk2, hn2⟩ := htlshape k2 d2 hkd2
          have e1 : k1 = k := hfst1
          have e2 : k2 = k := hfst2
          rw [e1] at hk1
          rw [e2] at hk2
          rw [hk1, List.append_assoc] at hk2
          have := List.append_cancel_left hk2
          injection this with ha hb
          rw [← ha] at hn2
          exact hnotin hn2

theorem filterMap_if_eq_map_filter {α β : Type} (p : α → Bool) (f : α → β) :
    ∀ l : List α, l.filterMap (fun a => if p a then none else some (f a)) =
      (l.filter (fun a => !p a)).map f := by
  intro l
  induction l with
  | nil => rfl
  | cons hd tl ih =>
    rw [List.filterMap_cons, List.filter_cons]
    cases hp : p hd with
    | true => simp only [hp, if_true, Bool.not_true, Bool.false_eq_true, if_false, ih]
    | false =>
      simp only [hp, Bool.false_eq_true, if_false, Bool.not_false, if_true,
        List.map_cons, ih]

def wfOpt : Option FSTree → Bool
  | none => true
  | some s => wfTree s

def errFreeOpt : Option FSTree → Bool
  | none => true
  | some s => errFree s

theorem builderLayerList_keys_nodup (base : List String) (src : Option FSTree)
    (sourceName target : String) (hwf : wfOpt src = true) :
    ((builderLayerList base src sourceName target).map Prod.fst).Nodup := by
  match src with
  | none => simp [builderLayerList]
  | some .link => simp [builderLayerList]
  | some (.file e) => simp [builderLayerList]
  | some (.dir e cs) =>
    rw [builderLayerList]
    have hwf' : wfTree (FSTree.dir e cs) = true := hwf
    rw [wfTree, Bool.and_eq_true] at hwf'
    obtain ⟨hnames, hlist⟩ := hwf'
    rw [wfList_iff] at hlist
    have hwalknd : ((builderWalk (1 + depthList cs) [] cs).map Prod.fst).Nodup :=
      builderWalk_keys_nodup (1 + depthList cs) cs (by simpa using hnames) hlist []
    have hfm : ((builderWalk (1 + depthList cs) [] cs).filterMap (fun kv =>
        if builderGitSkip target base kv.1 then none
        else some (builderTargetComps target ++ kv.1,
          (⟨base ++ kv.1, kv.2⟩ : MEntry)))).map Prod.fst =
        (((builderWalk (1 + depthList cs) [] cs).filter
          (fun kv => !builderGitSkip target base kv.1)).map Prod.fst).map
            (fun k => builderTargetComps target ++ k) := by
      rw [filterMap_if_eq_map_filter
        (fun kv : List String × Bool => builderGitSkip target base kv.1)
        (fun kv : List String × Bool => (builderTargetComps target ++ kv.1,
          (⟨base ++ kv.1, kv.2⟩ : MEntry)))]
      rw [List.map_map, List.map_map]
      rfl
    have hkeysnd : ((((builderWalk (1 + depthList cs) [] cs).filter
        (fun kv => !builderGitSkip target base kv.1)).map Prod.fst).map
          (fun k => builderTargetComps target ++ k)).Nodup := by
      refine List.Nodup.map ?_ ?_
      · intro a b hab
        exact List.append_cancel_left hab
      · exact List.Nodup.sublist (List.Sublist.map _ (List.filter_sublist _)) hwalknd
    by_cases ht : (target == ".") = true
    · rw [if_pos ht, List.nil_append, hfm]
      exact hkeysnd
    · rw [if_neg ht, List.cons_append, List.nil_append, List.map_cons, List.nodup_cons, hfm]
      refine ⟨?_, hkeysnd⟩
      intro hmem
      obtain ⟨k, hk, hfst⟩ := List.mem_map.mp hmem
      obtain ⟨kv1, hkd1, hfst1⟩ := List.mem_map.mp hk
      obtain ⟨k1, d1⟩ := kv1
      have hsub : (k1, d1) ∈ builderWalk (1 + depthList cs) [] cs :=
        List.mem_of_mem_filter hkd1
      obtain ⟨n, s, hks, _⟩ :=
        builderWalk_shape (1 + depthList cs) cs [] k1 d1 hsub
      rw [List.nil_append] at hks
      have hfst' : builderTargetComps target ++ k = builderTargetComps target := hfst
      have hk1 : k1 = k := hfst1
      have hlen := congrArg List.length hfst'
      rw [List.length_append] at hlen
      have hkl : k.length = 0 := by omega
      rw [← hk1, hks] at hkl
      simp at hkl

/-- CLAIM C1 (amended): layer precedence in `ManifestBuilder.apply_layer`.
For two layers applied in order to an empty builder, any virtual path
produced by both ends up with the second layer's entry, except when both
layers' entries are directories, in which case the first layer's earlier
directory entry (its backend path) survives. -/
theorem claim_C1_builder_precedence :
    ∀ (base1 : List String) (src1 : Option FSTree) (sn1 t1 : String)
      (base2 : List String) (src2 : Option FSTree) (sn2 t2 : String)
      (vp : List String) (e1 e2 : MEntry),
    wfOpt src1 = true → wfOpt src2 = true →
    errFreeOpt src1 = true → errFreeOpt src2 = true →
    builderApplyLayer emptyVMap base1 src1 sn1 t1 vp = some e1 →
    builderApplyLayer emptyVMap base2 src2 sn2 t2 vp = some e2 →
    builderApplyLayer (builderApplyLayer emptyVMap base1 src1 sn1 t1)
        base2 src2 sn2 t2 vp =
      some (if e1.isDir && e2.isDir then e1 else e2) := by
  intro base1 src1 sn1 t1 base2 src2 sn2 t2 vp e1 e2 hwf1 hwf2 _ _ h1 h2
  have hnd2 := builderLayerList_keys_nodup base2 src2 sn2 t2 hwf2
  rw [builderApplyLayer_eq_fold] at h2
  have hmem2 : (vp, e2) ∈ builderLayerList base2 src2 sn2 t2 :=
    foldMinsert_empty_some hnd2 h2
  rw [builderApplyLayer_eq_fold (builderApplyLayer emptyVMap base1 src1 sn1 t1)
    base2 src2 sn2 t2]
  rw [foldMinsert_lookup_mem _ hnd2 hmem2, h1, mergeOld, dirOverDir]
  by_cases hdd : (e1.isDir && e2.isDir) = true
  · rw [if_pos hdd, if_pos hdd]
  · rw [if_neg hdd, if_neg hdd]

/-- Witness for C1 (amended): two single-file layers colliding at
`x.txt`; the second layer's backend wins. -/
theorem claim_C1_builder_precedence_witness :
    wfOpt (some (.dir false [("x.txt", .file false)])) = true ∧
    builderApplyLayer emptyVMap ["tmp", "A"]
      (some (.dir false [("x.txt", .file false)])) "A" "." ["x.txt"] =
      some ⟨["tmp", "A", "x.txt"], false⟩ ∧
    builderApplyLayer (builderApplyLayer emptyVMap ["tmp", "A"]
        (some (.dir false [("x.txt", .file false)])) "A" ".")
      ["tmp", "B"] (some (.dir false [("x.txt", .file false)])) "B" "." ["x.txt"] =
      some (if (MEntry.mk ["tmp", "A", "x.txt"] false).isDir &&
          (MEntry.mk ["tmp", "B", "x.txt"] false).isDir
        then ⟨["tmp", "A", "x.txt"], false⟩ else ⟨["tmp", "B", "x.txt"], false⟩) :=
  ⟨by decide, by decide,
    claim_C1_builder_precedence ["tmp", "A"] (some (.dir false [("x.txt", .file false)]))
      "A" "." ["tmp", "B"] (some (.dir false [("x.txt", .file false)])) "B" "."
      ["x.txt"] ⟨["tmp", "A", "x.txt"], false⟩ ⟨["tmp", "B", "x.txt"], false⟩
      (by decide) (by decide) (by decide) (by decide) (by decide) (by decide)⟩

end NueFS

namespace NueFS

theorem nodup_assoc_eq {cs : List (String × FSTree)} {n : String} {u t : FSTree}
    (hnd : (cs.map Prod.fst).Nodup) (hu : (n, u) ∈ cs) (ht : (n, t) ∈ cs) : u = t := by
  induction cs with
  | nil => cases hu
  | cons hd tl ih =>
    rw [List.map_cons, List.nodup_cons] at hnd
    obtain ⟨hnotin, hndtl⟩ := hnd
    rcases List.mem_cons.mp hu with h1 | h1 <;> rcases List.mem_cons.mp ht with h2 | h2
    · rw [← h2] at h1
      exact congrArg Prod.snd h1
    · exfalso
      apply hnotin
      rw [show hd.1 = n from by rw [← h1]]
      exact List.mem_map_of_mem Prod.fst h2
    · exfalso
      apply hnotin
      rw [show hd.1 = n from by rw [← h2]]
      exact List.mem_map_of_mem Prod.fst h1
    · exact ih hndtl h1 h2

theorem lockFileEntries_shape (exclude includeSpec : Pathspec) (relDir : List String) :
    ∀ (cs : List (String × FSTree)) (k : List String) (d : Bool),
    (k, d) ∈ lockFileEntries exclude includeSpec relDir cs →
    ∃ n t, k = relDir ++ [n] ∧ (n, t) ∈ cs ∧ isDirNode t = false := by
  intro cs
  induction cs with
  | nil => intro k d h; cases h
  | cons hd tl ih =>
    intro k d h
    obtain ⟨n, t⟩ := hd
    rw [lockFileEntries] at h
    by_cases hdir : isDirNode t = true
    · rw [if_pos hdir] at h
      obtain ⟨n', t', hk, hmem, hdir'⟩ := ih k d h
      exact ⟨n', t', hk, List.mem_cons_of_mem _ hmem, hdir'⟩
    · rw [if_neg hdir] at h
      have hstep : ∀ h' : (k, d) ∈ lockFileEntries exclude includeSpec relDir tl,
          ∃ n' t', k = relDir ++ [n'] ∧ (n', t') ∈ (n, t) :: tl ∧ isDirNode t' = false := by
        intro h'
        obtain ⟨n', t', hk, hmem, hdir'⟩ := ih k d h'
        exact ⟨n', t', hk, List.mem_cons_of_mem _ hmem, hdir'⟩
      by_cases hexc : lockIsExcluded exclude includeSpec (relDir ++ [n]) false = true
      · rw [if_pos hexc] at h
        exact hstep h
      · rw [if_neg hexc] at h
        cases hst : statDir t with
        | none =>
          rw [hst] at h
          exact hstep h
        | some b =>
          rw [hst] at h
          rcases List.mem_cons.mp h with h1 | h1
          · have hk : k = relDir ++ [n] := congrArg Prod.fst h1
            exact ⟨n, t, hk, List.mem_cons_self _ _, by simpa using hdir⟩
          · exact hstep h1

theorem prunedDirs_mem {exclude includeSpec : Pathspec} {relDir : List String}
    {cs : List (String × FSTree)} {c : String × FSTree}
    (h : c ∈ prunedDirs exclude includeSpec relDir cs) :
    c ∈ cs ∧ isDirNode c.2 = true ∧ SKIP_DIRS.contains c.1 = false := by
  rw [prunedDirs] at h
  have h1 := List.mem_filter.mp h
  refine ⟨h1.1, ?_, ?_⟩
  · have := h1.2
    rw [Bool.and_assoc, Bool.and_eq_true] at this
    exact this.1
  · have := h1.2
    rw [Bool.and_assoc, Bool.and_eq_true] at this
    have h2 := this.2
    rw [Bool.and_eq_true] at h2
    simpa using h2.1

theorem lockWalkList_shape (exclude includeSpec : Pathspec) :
    ∀ (fuel : Nat) (relDir : List String) (cs : List (String × FSTree))
      (k : List String) (d : Bool),
    (k, d) ∈ lockWalkList exclude includeSpec fuel relDir cs →
    ∃ n s u, k = relDir ++ n :: s ∧ (n, u) ∈ cs ∧
      (isDirNode u = true → SKIP_DIRS.contains n = false) := by
  intro fuel
  induction fuel with
  | zero => intro relDir cs k d h; cases h
  | succ fuel ih =>
    intro relDir cs k d h
    rw [lockWalkList] at h
    rcases List.mem_append.mp h with h1 | h1
    · rcases List.mem_append.mp h1 with h2 | h2
      · obtain ⟨c, hc, heq⟩ := List.mem_map.mp h2
        obtain ⟨hccs, hcdir, hcskip⟩ := prunedDirs_mem hc
        have hk : k = relDir ++ [c.1] := (congrArg Prod.fst heq).symm
        exact ⟨c.1, [], c.2, hk, hccs, fun _ => hcskip⟩
      · obtain ⟨n, t, hk, hmem, hdir⟩ :=
          lockFileEntries_shape exclude includeSpec relDir cs k d h2
        exact ⟨n, [], t, hk, hmem, fun hd' => absurd hd' (by simp [hdir])⟩
    · obtain ⟨c, hc, hmem⟩ := List.mem_flatMap.mp h1
      obtain ⟨hccs, hcdir, hcskip⟩ := prunedDirs_mem hc
      obtain ⟨n, t⟩ := c
      cases t with
      | file e => cases hmem
      | link => cases hmem
      | dir e ccs =>
        cases e with
        | true => cases hmem
        | false =>
          replace hmem : (k, d) ∈ lockWalkList exclude includeSpec fuel (relDir ++ [n]) ccs :=
            hmem
          obtain ⟨n', s', u', hk, _, _⟩ := ih (relDir ++ [n]) ccs k d hmem
          refine ⟨n, n' :: s', .dir false ccs, ?_, hccs, fun _ => hcskip⟩
          rw [hk, List.append_assoc]
          rfl

/-- CLAIM C5 (counterexample): `ManifestBuilder.apply_layer` does not
consult the skip set beyond `.git`: a child directory named `.pixi`
(likewise `node_modules`, `__pycache__`, `.venv`, `target`) is registered
rather than skipped. -/
theorem claim_C5_counterexample :
    builderApplyLayer emptyVMap ["srv", "proj"]
      (some (.dir false [(".pixi", .dir false []), ("main.py", .file false)]))
      "proj" "." [".pixi"] =
      some ⟨["srv", "proj", ".pixi"], true⟩ := rfl

/-- CLAIM C5 (amended): the built-in skip set is enforced by
`Lock._apply_layer`, not by the builder, and the `.git` re-admission is
enforced by the builder, not by the lockfile.  (1) In `Lock._apply_layer`
a child directory named in the skip set is pruned unconditionally: no
walk registration lies at or under it.  (2) In
`ManifestBuilder.apply_layer` any path with a `.git` component is skipped
when the target does not lie under `.git`.  (3) When the target is `.git`
or lies under `.git/`, the builder admits every child, including ones
named `.git`. -/
theorem claim_C5_skip_dirs :
    (∀ (exclude includeSpec : Pathspec) (fuel : Nat) (relDir : List String)
      (cs : List (String × FSTree)) (n : String) (t : FSTree),
      (n, t) ∈ cs → isDirNode t = true → SKIP_DIRS.contains n = true →
      (cs.map Prod.fst).Nodup →
      ∀ (s : List String) (d : Bool),
        (relDir ++ n :: s, d) ∉ lockWalkList exclude includeSpec fuel relDir cs) ∧
    (∀ (base : List String) (e : Bool) (cs : List (String × FSTree))
      (sn target : String) (rel : List String),
      includeGit target = false → base.contains ".git" = false →
      rel.contains ".git" = true →
      builderApplyLayer emptyVMap base (some (.dir e cs)) sn target
        (builderTargetComps target ++ rel) = none) ∧
    (∀ (base : List String) (e : Bool) (cs : List (String × FSTree))
      (sn target : String) (n : String) (t : FSTree),
      includeGit target = true → wfTree (.dir e cs) = true →
      errFree (.dir e cs) = true → (n, t) ∈ cs →
      builderApplyLayer emptyVMap base (some (.dir e cs)) sn target
        (builderTargetComps target ++ [n]) = some ⟨base ++ [n], isDirNode t⟩) := by
  refine ⟨?_, ?_, ?_⟩
  · intro exclude includeSpec fuel relDir cs n t hmem hdir hskip hnd s d hcontra
    obtain ⟨n', s', u', hk, hmem', hu'⟩ :=
      lockWalkList_shape exclude includeSpec fuel relDir cs _ d hcontra
    have hinj := List.append_cancel_left hk
    injection hinj with ha hb
    rw [← ha] at hmem'
    have hut : u' = t := nodup_assoc_eq hnd hmem' hmem
    rw [hut] at hu'
    have h3 := hu' hdir
    rw [← ha] at h3
    rw [h3] at hskip
    cases hskip
  · intro base e cs sn target rel higit hbase hrel
    rw [builderApplyLayer_eq_fold]
    have hrelne : rel ≠ [] := by
      intro h
      rw [h] at hrel
      cases hrel
    refine foldMinsert_lookup_notmem _ ?_
    intro hmem
    rw [builderLayerList] at hmem
    rw [List.map_append, List.mem_append] at hmem
    rcases hmem with h1 | h1
    · by_cases ht : (target == ".") = true
      · rw [if_pos ht] at h1
        cases h1
      · rw [if_neg ht] at h1
        rcases List.mem_map.mp h1 with ⟨kv, hkv, hfst⟩
        rcases List.mem_singleton.mp hkv with rfl
        have : builderTargetComps target = builderTargetComps target ++ rel := hfst
        have hlen := congrArg List.length this
        rw [List.length_append] at hlen
        have : rel.length = 0 := by omega
        exact hrelne (List.length_eq_zero.mp this)
    · rcases List.mem_map.mp h1 with ⟨kv, hkv, hfst⟩
      rcases List.mem_filterMap.mp hkv with ⟨kv0, hkv0, heq⟩
      by_cases hskip : builderGitSkip target base kv0.1 = true
      · rw [if_pos hskip] at heq
        cases heq
      · rw [if_neg hskip] at heq
        injection heq with heq'
        rw [← heq'] at hfst
        have hfst' : builderTargetComps target ++ kv0.1 =
            builderTargetComps target ++ rel := hfst
        have hrel' : kv0.1 = rel := List.append_cancel_left hfst'
        apply hskip
        have hrelmem : ".git" ∈ rel := by simpa using hrel
        simp [builderGitSkip, higit, hrel', hrelmem]
  · intro base e cs sn target n t higit hwf herr hmem
    rw [builderApplyLayer_eq_fold]
    have hnd : ((builderLayerList base (some (.dir e cs)) sn target).map Prod.fst).Nodup :=
      builderLayerList_keys_nodup base (some (.dir e cs)) sn target hwf
    have hwalkmem : (([] : List String) ++ [n], isDirNode t) ∈
        builderWalk (1 + depthList cs) [] cs := by
      rw [Nat.add_comm 1 (depthList cs), builderWalk]
      refine List.mem_flatMap.mpr ⟨(n, t), hmem, ?_⟩
      exact List.mem_cons_self _ _
    have hlmem : (builderTargetComps target ++ [n],
        (⟨base ++ [n], isDirNode t⟩ : MEntry)) ∈
        builderLayerList base (some (.dir e cs)) sn target := by
      rw [builderLayerList, List.mem_append]
      right
      refine List.mem_filterMap.mpr ⟨([] ++ [n], isDirNode t), hwalkmem, ?_⟩
      have hskip : builderGitSkip target base ([] ++ [n]) = false := by
        rw [builderGitSkip, higit]
        simp
      rw [hskip]
      simp
    rw [foldMinsert_lookup_mem _ hnd hlmem]
    rfl

/-- Witness for C5 (amended), at concrete layers: a `node_modules`
directory child is pruned by the lockfile walk; a `.git` path is skipped
by the builder at target `.`; and with target `.git` a `.git` child is
admitted by the builder. -/
theorem claim_C5_skip_dirs_witness :
    ((["node_modules"], true) ∉ lockWalkList [] [] 1 []
      [("node_modules", .dir false []), ("app.py", .file false)]) ∧
    builderApplyLayer emptyVMap ["proj"]
      (some (.dir false [(".git", .dir false [("HEAD", .file false)])])) "proj" "."
      (builderTargetComps "." ++ [".git"]) = none ∧
    builderApplyLayer emptyVMap ["proj", ".git"]
      (some (.dir false [("HEAD", .file false)])) ".git" ".git"
      (builderTargetComps ".git" ++ ["HEAD"]) =
      some ⟨["proj", ".git", "HEAD"], isDirNode (.file false)⟩ :=
  ⟨claim_C5_skip_dirs.1 [] [] 1 []
      [("node_modules", .dir false []), ("app.py", .file false)]
      "node_modules" (.dir false []) (by decide) (by decide) (by decide) (by decide)
      [] true,
    claim_C5_skip_dirs.2.1 ["proj"] false
      [(".git", .dir false [("HEAD", .file false)])] "proj" "." [".git"]
      (by decide) (by decide) (by decide),
    claim_C5_skip_dirs.2.2 ["proj", ".git"] false [("HEAD", .file false)]
      ".git" ".git" "HEAD" (.file false) (by decide) (by decide) (by decide) (by decide)⟩

end NueFS

namespace NueFS

/-- Lexicographic comparison of strings by code point, as Python's `<`
on `str` (used only to model `sorted`). -/
def charListLe : List Char → List Char → Bool
  | [], _ => true
  | _ :: _, [] => false
  | a :: as, b :: bs =>
    if a.toNat < b.toNat then true
    else if b.toNat < a.toNat then false
    else charListLe as bs

def sortedStrings (l : List String) : List String :=
  l.insertionSort (fun a b => charListLe a.data b.data = true)

theorem sortedStrings_perm (l : List String) : (sortedStrings l).Perm l :=
  List.perm_insertionSort _ l

/-- workspace.py `resolve_mappings` (and cli.py `_resolve_mappings`):
the include/exclude filtering over the enumerated relative file paths of
a directory source.  A non-empty include list acts as a whitelist and
the exclude list is then ignored; the exclude list filters only when
include is empty. -/
def resolveMappings (includeSpec exclude : Pathspec) (files : List String) : List String :=
  sortedStrings (
    if !includeSpec.isEmpty then files.filter (psMatch includeSpec)
    else if !exclude.isEmpty then files.filter (fun f => !psMatch exclude f)
    else files)

/-- The candidate path strings `is_excluded` checks in
`Lock._apply_layer`. -/
def lockPaths (rel : List String) (isDir : Bool) : List String :=
  if isDir then [joinSlash rel, joinSlash rel ++ "/"] else [joinSlash rel]

/-- CLAIM C4 (counterexample): in workspace.py `resolve_mappings` a
non-empty include acts as a whitelist: the file `b.txt` is dropped even
though the (empty) exclude predicate does not match it. -/
theorem claim_C4_counterexample :
    resolveMappings [fun s => s == "a.py"] [] ["b.txt"] = [] ∧
    psMatch [] "b.txt" = false :=
  ⟨rfl, rfl⟩

theorem psMatch_nil (s : String) : psMatch [] s = false := rfl

/-- CLAIM C4 (amended): the drop-iff-excluded-and-not-included rule
holds for `MountEntry._is_excluded` (per candidate child) and for
`Lock._apply_layer.is_excluded`; in workspace.py `resolve_mappings` and
cli.py `_resolve_mappings`, however, a non-empty include list is a pure
whitelist (exclude is ignored), and exclude filters only when include is
empty. -/
theorem claim_C4_filtering :
    (∀ (m : MountEntry) (pfx : List String) (n : String) (t : FSTree),
      isDirNode t = false →
      (childEntry m pfx (n, t) = none ↔
        (psMatch m.exclude n = true ∧ psMatch m.includeSpec n = false))) ∧
    (∀ (exclude includeSpec : Pathspec) (rel : List String) (d : Bool),
      lockIsExcluded exclude includeSpec rel d =
        ((lockPaths rel d).any (psMatch exclude) &&
          !((lockPaths rel d).any (psMatch includeSpec)))) ∧
    (∀ (includeSpec exclude : Pathspec) (files : List String) (f : String),
      f ∈ resolveMappings includeSpec exclude files ↔
        (f ∈ files ∧
          ((includeSpec ≠ [] ∧ psMatch includeSpec f = true) ∨
           (includeSpec = [] ∧ exclude ≠ [] ∧ psMatch exclude f = false) ∨
           (includeSpec = [] ∧ exclude = [])))) := by
  refine ⟨?_, ?_, ?_⟩
  · intro m pfx n t hdir
    rw [childEntry]
    simp only [hdir, Bool.false_eq_true, if_false]
    have hie : isExcludedName m n false = (psMatch m.exclude n && !psMatch m.includeSpec n) :=
      rfl
    by_cases hexc : isExcludedName m n false = true
    · rw [if_pos hexc]
      rw [hie, Bool.and_eq_true, Bool.not_eq_true'] at hexc
      simp [hexc.1, hexc.2]
    · rw [if_neg hexc]
      rw [hie] at hexc
      constructor
      · intro h; cases h
      · intro ⟨h1, h2⟩
        exact absurd (by rw [h1, h2]; rfl) hexc
  · intro exclude includeSpec rel d
    rw [lockIsExcluded, lockPaths]
    by_cases hempty : exclude.isEmpty = true
    · rw [if_pos hempty]
      have hnil : exclude = [] := by
        cases exclude with
        | nil => rfl
        | cons a l => cases hempty
      subst hnil
      have : ∀ l : List String, l.any (psMatch []) = false := by
        intro l
        simp [psMatch_nil]
      rw [this]
      simp
    · rw [if_neg hempty]
      by_cases hany : ((if d then [joinSlash rel, joinSlash rel ++ "/"]
          else [joinSlash rel]).any (psMatch exclude)) = true
      · rw [if_pos hany, hany, Bool.true_and]
        by_cases hinc : (!includeSpec.isEmpty &&
            ((if d then [joinSlash rel, joinSlash rel ++ "/"]
              else [joinSlash rel]).any (psMatch includeSpec))) = true
        · rw [if_pos hinc]
          rw [Bool.and_eq_true] at hinc
          rw [hinc.2]
          rfl
        · rw [if_neg hinc]
          rw [Bool.and_eq_true] at hinc
          by_cases hie : includeSpec.isEmpty = true
          · have hnil : includeSpec = [] := by
              cases includeSpec with
              | nil => rfl
              | cons a l => cases hie
            subst hnil
            have : ∀ l : List String, l.any (psMatch []) = false := by
              intro l
              simp [psMatch_nil]
            rw [this]
            rfl
          · have h2 : ((if d then [joinSlash rel, joinSlash rel ++ "/"]
                else [joinSlash rel]).any (psMatch includeSpec)) = false := by
              by_cases h3 : ((if d then [joinSlash rel, joinSlash rel ++ "/"]
                  else [joinSlash rel]).any (psMatch includeSpec)) = true
              · exact absurd ⟨by simpa using hie, h3⟩ hinc
              · simpa using h3
            rw [h2]
            rfl
      · rw [if_neg hany]
        rw [show ((if d then [joinSlash rel, joinSlash rel ++ "/"]
            else [joinSlash rel]).any (psMatch exclude)) = false from by simpa using hany]
        simp
  · intro includeSpec exclude files f
    rw [resolveMappings, (sortedStrings_perm _).mem_iff]
    cases includeSpec with
    | cons i il =>
      simp only [List.isEmpty_cons, Bool.not_false, if_true, List.mem_filter]
      constructor
      · rintro ⟨h1, h2⟩
        refine ⟨h1, Or.inl ⟨?_, h2⟩⟩
        simp
      · rintro ⟨h1, h2 | h2 | h2⟩
        · exact ⟨h1, h2.2⟩
        · exact absurd h2.1 (by simp)
        · exact absurd h2.1 (by simp)
    | nil =>
      cases exclude with
      | cons x xl =>
        simp only [List.isEmpty_nil, Bool.not_true, Bool.false_eq_true, if_false,
          List.isEmpty_cons, Bool.not_false, if_true, List.mem_filter]
        constructor
        · rintro ⟨h1, h2⟩
          refine ⟨h1, Or.inr (Or.inl ⟨?_, ?_, ?_⟩)⟩
          · trivial
          · simp
          · simpa using h2
        · rintro ⟨h1, h2 | h2 | h2⟩
          · exact absurd h2.1 (by simp)
          · exact ⟨h1, by simpa using h2.2.2⟩
          · exact absurd h2.2 (by simp)
      | nil =>
        simp only [List.isEmpty_nil, Bool.not_true, Bool.false_eq_true, if_false]
        constructor
        · intro h1
          exact ⟨h1, Or.inr (Or.inr ⟨by trivial, by trivial⟩)⟩
        · rintro ⟨h1, _⟩
          exact h1

/-- Witness for C4 (amended): a concrete excluded file child, a concrete
lockfile exclusion, and a concrete whitelist filtering. -/
theorem claim_C4_filtering_witness :
    isDirNode (FSTree.file false) = false ∧
    (childEntry ⟨"s", "", [fun s => s == "b.txt"], []⟩ [] ("b.txt", .file false) = none ↔
      (psMatch [fun s => s == "b.txt"] "b.txt" = true ∧
        psMatch ([] : Pathspec) "b.txt" = false)) ∧
    lockIsExcluded [fun s => s == "x"] [] ["x"] false =
      ((lockPaths ["x"] false).any (psMatch [fun s => s == "x"]) &&
        !((lockPaths ["x"] false).any (psMatch ([] : Pathspec)))) ∧
    ("a.py" ∈ resolveMappings [fun s => s == "a.py"] [] ["a.py", "b.txt"] ↔
      ("a.py" ∈ ["a.py", "b.txt"] ∧
        ((([fun s => s == "a.py"] : Pathspec) ≠ [] ∧
            psMatch [fun s => s == "a.py"] "a.py" = true) ∨
         (([fun s => s == "a.py"] : Pathspec) = [] ∧ ([] : Pathspec) ≠ [] ∧
            psMatch ([] : Pathspec) "a.py" = false) ∨
         (([fun s => s == "a.py"] : Pathspec) = [] ∧ ([] : Pathspec) = [])))) :=
  ⟨rfl,
    claim_C4_filtering.1 ⟨"s", "", [fun s => s == "b.txt"], []⟩ [] "b.txt"
      (.file false) rfl,
    claim_C4_filtering.2.1 [fun s => s == "x"] [] ["x"] false,
    claim_C4_filtering.2.2 [fun s => s == "a.py"] [] ["a.py", "b.txt"] "a.py"⟩

end NueFS

namespace NueFS

/-- The wire-level manifest entry consumed by the native core. -/
structure ManifestEntry where
  virtual_path : String
  backend_path : String
  is_dir : Bool
deriving DecidableEq

/-- Modelled from the spec: the virtual-path validation performed at
registration by the native core (`nuefs._nuefs`, not under `src/`):
"Invalid virtual paths (absolute, contain `..`, use backslash) are
rejected during registration" together with the §8 path-normalization
invariant (no `..`, no leading `/`, no backslash, not empty or `.`). -/
def validVirtualPath (v : String) : Bool :=
  v != "" && v != "." && !strStartsWith v "/" && !strContainsChar v '\\' &&
    !(splitSlash v).contains ".."

/-- Modelled from the spec: registration of compiled entries rejects
entries with invalid virtual paths. -/
def registerEntries (l : List ManifestEntry) : List ManifestEntry :=
  l.filter (fun e => validVirtualPath e.virtual_path)

/-- One resolved layer rendered to wire entries and passed through
registration: the entries a compiled manifest accepts. -/
def compiledAccepted (m : MountEntry) (src : Option FSTree) (sourceName : String) :
    Option (List ManifestEntry) :=
  (iterEntries m src sourceName).map (fun l =>
    registerEntries (l.map (fun kv =>
      ⟨joinSlash kv.1, joinSlash kv.2.backend, kv.2.isDir⟩)))

/-- CLAIM C3 (confirmed, against the spec-modelled registration): every
entry accepted into a compiled manifest — for any layer inputs,
including arbitrary dest strings — has a virtual path that is non-empty,
not `.`, has no leading `/`, no backslash, and no `..` component. -/
theorem claim_C3_path_normalization :
    ∀ (m : MountEntry) (src : Option FSTree) (sourceName : String)
      (l : List ManifestEntry) (e : ManifestEntry),
    compiledAccepted m src sourceName = some l → e ∈ l →
    e.virtual_path ≠ "" ∧ e.virtual_path ≠ "." ∧
    strStartsWith e.virtual_path "/" = false ∧
    strContainsChar e.virtual_path '\\' = false ∧
    ".." ∉ splitSlash e.virtual_path := by
  intro m src sourceName l e hsome hmem
  rw [compiledAccepted] at hsome
  cases hit : iterEntries m src sourceName with
  | none => rw [hit] at hsome; cases hsome
  | some entries =>
    rw [hit, Option.map_some'] at hsome
    injection hsome with hl
    rw [← hl, registerEntries] at hmem
    have hval := List.of_mem_filter hmem
    rw [validVirtualPath] at hval
    rw [Bool.and_eq_true, Bool.and_eq_true, Bool.and_eq_true, Bool.and_eq_true] at hval
    obtain ⟨⟨⟨⟨h1, h2⟩, h3⟩, h4⟩, h5⟩ := hval
    refine ⟨by simpa using h1, by simpa using h2, by simpa using h3,
      by simpa using h4, by simpa using h5⟩

/-- Witness for C3 at a concrete resolved layer. -/
theorem claim_C3_path_normalization_witness :
    compiledAccepted ⟨"./", "", [], []⟩ (some (.dir false [("a.txt", .file false)])) "x" =
      some [⟨"a.txt", "a.txt", false⟩] ∧
    (ManifestEntry.mk "a.txt" "a.txt" false ∈ [ManifestEntry.mk "a.txt" "a.txt" false]) ∧
    ((ManifestEntry.mk "a.txt" "a.txt" false).virtual_path ≠ "" ∧
     (ManifestEntry.mk "a.txt" "a.txt" false).virtual_path ≠ "." ∧
     strStartsWith (ManifestEntry.mk "a.txt" "a.txt" false).virtual_path "/" = false ∧
     strContainsChar (ManifestEntry.mk "a.txt" "a.txt" false).virtual_path '\\' = false ∧
     ".." ∉ splitSlash (ManifestEntry.mk "a.txt" "a.txt" false).virtual_path) :=
  ⟨by decide, by decide,
    claim_C3_path_normalization ⟨"./", "", [], []⟩
      (some (.dir false [("a.txt", .file false)])) "x"
      [⟨"a.txt", "a.txt", false⟩] ⟨"a.txt", "a.txt", false⟩ (by decide) (by decide)⟩

/-- A mount record of the registry. -/
structure MountRec where
  mount_id : Nat
  root : String
  entries : List ManifestEntry
deriving DecidableEq

/-- The process-wide Mount Registry state. -/
structure RegState where
  mounts : List MountRec
  nextId : Nat
deriving DecidableEq

/-- Modelled from the spec: `resolve(root)` of the Mount Registry (the
native core is not under `src/`): the mount id registered for a
canonical root. -/
def registryResolve (st : RegState) (root : String) : Option Nat :=
  (st.mounts.find? (fun mrec => mrec.root == root)).map (fun mrec => mrec.mount_id)

/-- Modelled from the spec: `create(root, entries)`: fail "already
mounted" when the canonical root is registered; otherwise allocate the
next mount id and install the entries. -/
def registryCreate (st : RegState) (root : String) (es : List ManifestEntry) :
    Except String (RegState × Nat) :=
  match registryResolve st root with
  | some _ => .error "already mounted"
  | none => .ok (⟨st.mounts ++ [⟨st.nextId, root, es⟩], st.nextId + 1⟩, st.nextId)

/-- Modelled from the spec: `update(mount_id, entries)`: swap in the new
entries; fail when the id is unknown. -/
def registryUpdate (st : RegState) (mid : Nat) (es : List ManifestEntry) :
    Except String RegState :=
  if st.mounts.any (fun mrec => mrec.mount_id == mid) then
    .ok ⟨st.mounts.map (fun mrec =>
      if mrec.mount_id == mid then ⟨mrec.mount_id, mrec.root, es⟩ else mrec), st.nextId⟩
  else .error "mount_id not found"

/-- core.py `mount`: "Create a mount with entries, or update if it
exists" — resolve the (already canonicalized) root; update the existing
mount when found, otherwise create. -/
def coreMount (st : RegState) (root : String) (es : List ManifestEntry) :
    Except String (RegState × Nat) :=
  match registryResolve st root with
  | some mid => (registryUpdate st mid es).map (fun st' => (st', mid))
  | none => registryCreate st root es

/-- CLAIM C8 (counterexample): `nuefs.core.mount` on an already-mounted
root does not fail: it succeeds, returns the existing mount id, and
replaces the existing mount's entries — the mount's state is changed by
the request. -/
theorem claim_C8_counterexample :
    coreMount ⟨[⟨0, "r", [⟨"a", "b", false⟩]⟩], 1⟩ "r" [⟨"c", "d", true⟩] =
      .ok (⟨[⟨0, "r", [⟨"c", "d", true⟩]⟩], 1⟩, 0) ∧
    (RegState.mk [⟨0, "r", [⟨"c", "d", true⟩]⟩] 1) ≠
      (RegState.mk [⟨0, "r", [⟨"a", "b", false⟩]⟩] 1) :=
  ⟨rfl, by decide⟩

/-- CLAIM C8 (amended): the registry-level `create` (spec-modelled, the
native registry is not under `src/`) fails immediately with "already
mounted" on an already-mounted canonical root and returns no new state,
so the existing mount is unchanged; the Python wrapper
`nuefs.core.mount`, however, updates the existing mount in place and
returns its handle instead of failing. -/
theorem claim_C8_already_mounted :
    ∀ (st : RegState) (root : String) (es : List ManifestEntry) (mid : Nat),
      registryResolve st root = some mid →
      registryCreate st root es = .error "already mounted" := by
  intro st root es mid h
  rw [registryCreate, h]

/-- Witness for C8 (amended) at a concrete one-mount registry. -/
theorem claim_C8_already_mounted_witness :
    registryResolve ⟨[⟨0, "r", [⟨"a", "b", false⟩]⟩], 1⟩ "r" = some 0 ∧
    registryCreate ⟨[⟨0, "r", [⟨"a", "b", false⟩]⟩], 1⟩ "r" [⟨"c", "d", true⟩] =
      .error "already mounted" :=
  ⟨by decide,
    claim_C8_already_mounted ⟨[⟨0, "r", [⟨"a", "b", false⟩]⟩], 1⟩ "r"
      [⟨"c", "d", true⟩] 0 (by decide)⟩

end NueFS

namespace NueFS

/-- The declarative descend condition of the collapsing loop, in the
words of the spec: the directory listing holds exactly one non-excluded
subdirectory and no non-excluded files; that unique subdirectory is the
descend target. -/
def descendTarget (m : MountEntry) (cs : List (String × FSTree)) :
    Option (String × FSTree) :=
  if cs.any (isNEFile m) then none
  else match cs.filter (isNEDir m) with
    | [d] => some d
    | _ => none

/-- A directory from which the collapsing loop does not descend. -/
def noDescend (m : MountEntry) : FSTree → Bool
  | .dir false cs => (descendTarget m cs).isNone
  | _ => true

/-- The reflexive-transitive descend chain: repeatedly replace the
directory by its unique non-excluded subdirectory, appending each
traversed name to the accumulated relative name. -/
inductive CollapseSteps (m : MountEntry) :
    FSTree → List String → FSTree → List String → Prop
  | refl (t : FSTree) (rel : List String) : CollapseSteps m t rel t rel
  | step {cs : List (String × FSTree)} {rel : List String} {n : String}
      {sub t' : FSTree} {rel' : List String} :
      descendTarget m cs = some (n, sub) →
      CollapseSteps m sub (rel ++ [n]) t' rel' →
      CollapseSteps m (.dir false cs) rel t' rel'

theorem descendTarget_mem {m : MountEntry} {cs : List (String × FSTree)}
    {d : String × FSTree} (h : descendTarget m cs = some d) : d ∈ cs := by
  rw [descendTarget] at h
  by_cases hany : cs.any (isNEFile m) = true
  · rw [if_pos hany] at h; cases h
  · rw [if_neg hany] at h
    cases hfil : cs.filter (isNEDir m) with
    | nil => rw [hfil] at h; cases h
    | cons d1 ds =>
      cases ds with
      | nil =>
        rw [hfil] at h
        injection h with h1
        have : d1 ∈ cs.filter (isNEDir m) := by rw [hfil]; exact List.mem_cons_self _ _
        rw [← h1]
        exact List.mem_of_mem_filter this
      | cons d2 ds' => rw [hfil] at h; cases h

/-- CLAIM C6 (confirmed): characterization of single-child chain
collapsing.  On an error-free subtree, `_collapse_chain` started at
`(t, rel)` returns exactly the pair reached by repeatedly descending
while the current directory holds exactly one non-excluded subdirectory
and no non-excluded files — appending each traversed name to the
relative suffix — stopping at the first directory (or non-directory)
with no such unique descend target. -/
theorem claim_C6_collapse_characterization :
    ∀ (m : MountEntry) (t : FSTree) (rel : List String) (t' : FSTree)
      (rel' : List String), errFree t = true →
    (collapseChain m t rel = .done t' rel' ↔
      (CollapseSteps m t rel t' rel' ∧ noDescend m t' = true)) := by
  have key : ∀ (m : MountEntry) (fuel : Nat) (t : FSTree) (rel : List String),
      errFree t = true → depth t < fuel → ∀ (t' : FSTree) (rel' : List String),
      (collapseFuel m fuel t rel = .done t' rel' ↔
        (CollapseSteps m t rel t' rel' ∧ noDescend m t' = true)) := by
    intro m fuel
    induction fuel with
    | zero => intro t rel _ hd; omega
    | succ fuel ih =>
      intro t rel herr hd t' rel'
      match t with
      | .file e =>
        constructor
        · intro h
          have h2 : CRes.done (FSTree.file e) rel = CRes.done t' rel' := h
          injection h2 with ha hb
          subst ha
          subst hb
          exact ⟨CollapseSteps.refl _ _, rfl⟩
        · intro ⟨hsteps, _⟩
          cases hsteps
          rfl
      | .link =>
        constructor
        · intro h
          have h2 : CRes.done FSTree.link rel = CRes.done t' rel' := h
          injection h2 with ha hb
          subst ha
          subst hb
          exact ⟨CollapseSteps.refl _ _, rfl⟩
        · intro ⟨hsteps, _⟩
          cases hsteps
          rfl
      | .dir true cs => rw [errFree] at herr; simp at herr
      | .dir false cs =>
        have hlist : errFreeList cs = true := by
          rw [errFree, Bool.and_eq_true] at herr
          exact herr.2
        obtain ⟨ds, hds, hfil⟩ := collapseScan_errFree (m := m) hlist
        cases hany : cs.any (isNEFile m) with
        | true =>
          rw [hany] at hds
          have hdt : descendTarget m cs = none := by
            rw [descendTarget, if_pos hany]
          rw [collapseFuel, hds]
          constructor
          · intro h
            injection h with h1 h2
            subst h1
            subst h2
            refine ⟨CollapseSteps.refl _ _, ?_⟩
            rw [noDescend, hdt]
            rfl
          · intro ⟨hsteps, hstop⟩
            cases hsteps with
            | refl => rfl
            | step hdt' _ => rw [hdt'] at hdt; cases hdt
        | false =>
          rw [hany] at hds
          rw [hfil hany] at hds
          cases hfilter : cs.filter (isNEDir m) with
          | nil =>
            rw [hfilter] at hds
            have hdt : descendTarget m cs = none := by
              rw [descendTarget, if_neg (by simp [hany]), hfilter]
            rw [collapseFuel, hds]
            constructor
            · intro h
              injection h with h1 h2
              subst h1
              subst h2
              refine ⟨CollapseSteps.refl _ _, ?_⟩
              rw [noDescend, hdt]
              rfl
            · intro ⟨hsteps, hstop⟩
              cases hsteps with
              | refl => rfl
              | step hdt' _ => rw [hdt'] at hdt; cases hdt
          | cons d1 ds' =>
            cases ds' with
            | nil =>
              rw [hfilter] at hds
              have hdt : descendTarget m cs = some d1 := by
                rw [descendTarget, if_neg (by simp [hany]), hfilter]
              have hmem : d1 ∈ cs :=
                List.mem_of_mem_filter (by rw [hfilter]; exact List.mem_cons_self _ _)
              have herrd : errFree d1.2 = true := by
                obtain ⟨n1, u1⟩ := d1
                exact errFree_of_mem herr hmem
              have hdep : depth d1.2 ≤ depthList cs := by
                obtain ⟨n1, u1⟩ := d1
                exact depth_le_of_mem hmem
              have hdepth : depth (FSTree.dir false cs) = 1 + depthList cs := by
                rw [depth]
              have hih := ih d1.2 (rel ++ [d1.1]) herrd (by omega) t' rel'
              rw [collapseFuel, hds]
              simp only
              rw [hih]
              constructor
              · intro ⟨hsteps, hstop⟩
                exact ⟨CollapseSteps.step hdt hsteps, hstop⟩
              · intro ⟨hsteps, hstop⟩
                cases hsteps with
                | refl =>
                  rw [noDescend, hdt] at hstop
                  cases hstop
                | step hdt' hsteps' =>
                  rw [hdt] at hdt'
                  injection hdt' with hdt''
                  obtain ⟨n2, u2⟩ := d1
                  injection hdt'' with ha hb
                  subst ha
                  subst hb
                  exact ⟨hsteps', hstop⟩
            | cons d2 ds'' =>
              rw [hfilter] at hds
              have hdt : descendTarget m cs = none := by
                rw [descendTarget, if_neg (by simp [hany]), hfilter]
              rw [collapseFuel, hds]
              constructor
              · intro h
                injection h with h1 h2
                subst h1
                subst h2
                refine ⟨CollapseSteps.refl _ _, ?_⟩
                rw [noDescend, hdt]
                rfl
              · intro ⟨hsteps, hstop⟩
                cases hsteps with
                | refl => rfl
                | step hdt' _ => rw [hdt'] at hdt; cases hdt
  intro m t rel t' rel' herr
  exact key m (depth t + 1) t rel herr (by omega) t' rel'

/-- Witness for C6 at a concrete two-level chain. -/
theorem claim_C6_collapse_characterization_witness :
    errFree (FSTree.dir false [("b", .dir false [("c", .file false)])]) = true ∧
    (collapseChain ⟨"./", "", [], []⟩
        (.dir false [("b", .dir false [("c", .file false)])]) ["a"] =
        .done (.dir false [("c", .file false)]) ["a", "b"] ↔
      (CollapseSteps ⟨"./", "", [], []⟩
          (.dir false [("b", .dir false [("c", .file false)])]) ["a"]
          (.dir false [("c", .file false)]) ["a", "b"] ∧
        noDescend ⟨"./", "", [], []⟩ (.dir false [("c", .file false)]) = true)) :=
  ⟨by decide,
    claim_C6_collapse_characterization ⟨"./", "", [], []⟩
      (.dir false [("b", .dir false [("c", .file false)])]) ["a"]
      (.dir false [("c", .file false)]) ["a", "b"] (by decide)⟩

end NueFS

namespace NueFS

theorem all_perm {α : Type} {l₁ l₂ : List α} {p : α → Bool} (h : l₁.Perm l₂) :
    l₁.all p = l₂.all p := by
  induction h with
  | nil => rfl
  | cons x h ih => simp [List.all_cons, ih]
  | swap x y l =>
    simp [List.all_cons]
    rw [← Bool.and_assoc, Bool.and_comm (p y) (p x), Bool.and_assoc]
  | trans h1 h2 ih1 ih2 => rw [ih1, ih2]

theorem any_perm {α : Type} {l₁ l₂ : List α} {p : α → Bool} (h : l₁.Perm l₂) :
    l₁.any p = l₂.any p := by
  induction h with
  | nil => rfl
  | cons x h ih => simp [List.any_cons, ih]
  | swap x y l =>
    simp [List.any_cons]
    rw [← Bool.or_assoc, Bool.or_comm (p y) (p x), Bool.or_assoc]
  | trans h1 h2 ih1 ih2 => rw [ih1, ih2]

def sortByName (l : List (String × FSTree)) : List (String × FSTree) :=
  l.insertionSort (fun a b => charListLe a.1.data b.1.data = true)

theorem sortByName_perm (l : List (String × FSTree)) : (sortByName l).Perm l :=
  List.perm_insertionSort _ l

mutual

def canonTree : FSTree → FSTree
  | .file e => .file e
  | .link => .link
  | .dir e cs => .dir e (sortByName (canonList cs))

def canonList : List (String × FSTree) → List (String × FSTree)
  | [] => []
  | c :: rest => (c.1, canonTree c.2) :: canonList rest

end

theorem canonList_eq_map : ∀ cs : List (String × FSTree),
    canonList cs = cs.map (fun c => (c.1, canonTree c.2)) := by
  intro cs
  induction cs with
  | nil => rfl
  | cons hd tl ih => rw [canonList, ih, List.map_cons]

theorem isDirNode_canon (t : FSTree) : isDirNode (canonTree t) = isDirNode t := by
  cases t <;> rfl

theorem isFileNode_canon (t : FSTree) : isFileNode (canonTree t) = isFileNode t := by
  cases t <;> rfl

theorem statDir_canon (t : FSTree) : statDir (canonTree t) = statDir t := by
  cases t with
  | file e => cases e <;> rfl
  | link => rfl
  | dir e cs => rfl

theorem isNEFile_canon (m : MountEntry) (c : String × FSTree) :
    isNEFile m (c.1, canonTree c.2) = isNEFile m c := by
  rw [isNEFile, isNEFile, isDirNode_canon]

theorem isNEDir_canon (m : MountEntry) (c : String × FSTree) :
    isNEDir m (c.1, canonTree c.2) = isNEDir m c := by
  rw [isNEDir, isNEDir, isDirNode_canon]

theorem errFreeList_eq_all : ∀ cs : List (String × FSTree),
    errFreeList cs = cs.all (fun c => errFree c.2) := by
  intro cs
  induction cs with
  | nil => rfl
  | cons hd tl ih => rw [errFreeList, ih, List.all_cons]

theorem errFree_canon : ∀ t : FSTree, errFree (canonTree t) = errFree t := by
  intro t
  induction t using FSTree.myInduct with
  | hfile e => rfl
  | hlink => rfl
  | hdir e cs ih =>
    have h1 : canonTree (FSTree.dir e cs) = .dir e (sortByName (canonList cs)) := by
      rw [canonTree]
    rw [h1, errFree, errFree, errFreeList_eq_all, errFreeList_eq_all,
      all_perm (sortByName_perm (canonList cs)), canonList_eq_map, List.all_map]
    have hcongr : ∀ cs' : List (String × FSTree),
        (∀ n u, (n, u) ∈ cs' → errFree (canonTree u) = errFree u) →
        cs'.all ((fun c => errFree c.2) ∘ fun c : String × FSTree =>
          (c.1, canonTree c.2)) = cs'.all (fun c => errFree c.2) := by
      intro cs'
      induction cs' with
      | nil => intro _; rfl
      | cons hd tl ihtl =>
        intro hmem
        obtain ⟨n, u⟩ := hd
        rw [List.all_cons, List.all_cons,
          ihtl (fun n' u' h' => hmem n' u' (List.mem_cons_of_mem _ h'))]
        have : ((fun c => errFree c.2) ∘ fun c : String × FSTree =>
            (c.1, canonTree c.2)) (n, u) = errFree (canonTree u) := rfl
        rw [this, hmem n u (List.mem_cons_self _ _)]
    rw [hcongr cs ih]

theorem depthList_perm {l₁ l₂ : List (String × FSTree)} (h : l₁.Perm l₂) :
    depthList l₁ = depthList l₂ := by
  induction h with
  | nil => rfl
  | cons x h ih => rw [depthList, depthList, ih]
  | swap x y l =>
    rw [depthList, depthList, depthList, depthList, ← Nat.max_assoc,
      Nat.max_comm (depth y.2) (depth x.2), Nat.max_assoc]
  | trans h1 h2 ih1 ih2 => rw [ih1, ih2]

theorem depth_canon : ∀ t : FSTree, depth (canonTree t) = depth t := by
  intro t
  induction t using FSTree.myInduct with
  | hfile e => rfl
  | hlink => rfl
  | hdir e cs ih =>
    have h1 : canonTree (FSTree.dir e cs) = .dir e (sortByName (canonList cs)) := by
      rw [canonTree]
    rw [h1, depth, depth, depthList_perm (sortByName_perm (canonList cs))]
    have : ∀ cs' : List (String × FSTree),
        (∀ n u, (n, u) ∈ cs' → depth (canonTree u) = depth u) →
        depthList (canonList cs') = depthList cs' := by
      intro cs'
      induction cs' with
      | nil => intro _; rfl
      | cons hd tl ihtl =>
        intro hmem
        obtain ⟨n, u⟩ := hd
        rw [canonList, depthList, depthList, hmem n u (List.mem_cons_self _ _),
          ihtl (fun n' u' h' => hmem n' u' (List.mem_cons_of_mem _ h'))]
    rw [this cs ih]

end NueFS

namespace NueFS

def canonCRes : CRes → CRes
  | .done t r => .done (canonTree t) r
  | r => r

theorem any_congr_mem {α : Type} {p q : α → Bool} :
    ∀ {l : List α}, (∀ a ∈ l, p a = q a) → l.any p = l.any q := by
  intro l
  induction l with
  | nil => intro _; rfl
  | cons hd tl ih =>
    intro h
    rw [List.any_cons, List.any_cons, h hd (List.mem_cons_self _ _),
      ih (fun a ha => h a (List.mem_cons_of_mem _ ha))]

theorem canonDir_eq (e : Bool) (cs : List (String × FSTree)) :
    canonTree (FSTree.dir e cs) = .dir e (sortByName (canonList cs)) := by
  rw [canonTree]

theorem canon_any_isNEFile (m : MountEntry) (cs : List (String × FSTree)) :
    (sortByName (canonList cs)).any (isNEFile m) = cs.any (isNEFile m) := by
  rw [any_perm (sortByName_perm (canonList cs)), canonList_eq_map, List.any_map]
  exact any_congr_mem (fun c _ => isNEFile_canon m c)

theorem canon_filter_isNEDir (m : MountEntry) (cs : List (String × FSTree)) :
    ((sortByName (canonList cs)).filter (isNEDir m)).Perm
      ((cs.filter (isNEDir m)).map (fun c => (c.1, canonTree c.2))) := by
  refine ((sortByName_perm (canonList cs)).filter (isNEDir m)).trans ?_
  rw [canonList_eq_map, List.filter_map]
  have : cs.filter ((isNEDir m) ∘ fun c => (c.1, canonTree c.2)) =
      cs.filter (isNEDir m) := by
    refine List.filter_congr ?_
    intro c _
    exact isNEDir_canon m c
  rw [this]

theorem all_canon_errFree : ∀ cs : List (String × FSTree),
    cs.all ((fun c : String × FSTree => errFree c.2) ∘
      fun c : String × FSTree => (c.1, canonTree c.2)) =
    cs.all (fun c : String × FSTree => errFree c.2) := by
  intro cs
  induction cs with
  | nil => rfl
  | cons hd tl ih =>
    rw [List.all_cons, List.all_cons, ih]
    have h1 : ((fun c : String × FSTree => errFree c.2) ∘
        fun c : String × FSTree => (c.1, canonTree c.2)) hd =
        errFree (canonTree hd.2) := rfl
    rw [h1, errFree_canon hd.2]

theorem errFreeList_canon_sorted {cs : List (String × FSTree)}
    (h : errFreeList cs = true) : errFreeList (sortByName (canonList cs)) = true := by
  rw [errFreeList_eq_all, all_perm (sortByName_perm (canonList cs)), canonList_eq_map,
    List.all_map, all_canon_errFree]
  rw [errFreeList_eq_all] at h
  exact h

theorem collapse_canon (m : MountEntry) : ∀ (fuel : Nat) (t : FSTree) (rel : List String),
    errFree t = true →
    collapseFuel m fuel (canonTree t) rel = canonCRes (collapseFuel m fuel t rel) := by
  intro fuel
  induction fuel with
  | zero => intro t rel _; rfl
  | succ fuel ih =>
    intro t rel herr
    match t with
    | .file e => rfl
    | .link => rfl
    | .dir true cs => rw [errFree] at herr; simp at herr
    | .dir false cs =>
      have hlist : errFreeList cs = true := by
        rw [errFree, Bool.and_eq_true] at herr
        exact herr.2
      obtain ⟨ds, hds, hfil⟩ := collapseScan_errFree (m := m) hlist
      obtain ⟨dsC, hdsC, hfilC⟩ :=
        collapseScan_errFree (m := m) (errFreeList_canon_sorted hlist)
      rw [canonDir_eq]
      cases hany : cs.any (isNEFile m) with
      | true =>
        rw [hany] at hds
        rw [canon_any_isNEFile m cs, hany] at hdsC
        have hR : collapseFuel m (fuel + 1) (FSTree.dir false cs) rel =
            .done (.dir false cs) rel := by
          rw [collapseFuel, hds]
        have hL : collapseFuel m (fuel + 1)
            (FSTree.dir false (sortByName (canonList cs))) rel =
            .done (.dir false (sortByName (canonList cs))) rel := by
          rw [collapseFuel, hdsC]
        rw [hL, hR, canonCRes, canonDir_eq]
      | false =>
        rw [hany] at hds
        rw [hfil hany] at hds
        rw [canon_any_isNEFile m cs, hany] at hdsC
        rw [hfilC (by rw [canon_any_isNEFile m cs]; exact hany)] at hdsC
        have hperm := canon_filter_isNEDir m cs
        cases hfilter : cs.filter (isNEDir m) with
        | nil =>
          rw [hfilter] at hds hperm
          have hnil : (sortByName (canonList cs)).filter (isNEDir m) = [] := by
            have h5 := hperm
            rw [List.map_nil] at h5
            exact List.Perm.eq_nil h5
          rw [hnil] at hdsC
          have hR : collapseFuel m (fuel + 1) (FSTree.dir false cs) rel =
              .done (.dir false cs) rel := by
            rw [collapseFuel, hds]
          have hL : collapseFuel m (fuel + 1)
              (FSTree.dir false (sortByName (canonList cs))) rel =
              .done (.dir false (sortByName (canonList cs))) rel := by
            rw [collapseFuel, hdsC]
          rw [hL, hR, canonCRes, canonDir_eq]
        | cons d1 ds' =>
          cases ds' with
          | nil =>
            rw [hfilter] at hds hperm
            have hsing : (sortByName (canonList cs)).filter (isNEDir m) =
                [(d1.1, canonTree d1.2)] := by
              have h5 := hperm
              rw [List.map_cons, List.map_nil] at h5
              exact List.perm_singleton.mp h5
            rw [hsing] at hdsC
            have hR : collapseFuel m (fuel + 1) (FSTree.dir false cs) rel =
                collapseFuel m fuel d1.2 (rel ++ [d1.1]) := by
              rw [collapseFuel, hds]
            have hL : collapseFuel m (fuel + 1)
                (FSTree.dir false (sortByName (canonList cs))) rel =
                collapseFuel m fuel (canonTree d1.2) (rel ++ [d1.1]) := by
              rw [collapseFuel, hdsC]
            rw [hL, hR]
            have hmem : d1 ∈ cs := List.mem_of_mem_filter
              (by rw [hfilter]; exact List.mem_cons_self _ _)
            have herrd : errFree d1.2 = true := by
              obtain ⟨n1, u1⟩ := d1
              exact errFree_of_mem herr hmem
            exact ih d1.2 (rel ++ [d1.1]) herrd
          | cons d2 ds'' =>
            rw [hfilter] at hds hperm
            have hlen : ((sortByName (canonList cs)).filter (isNEDir m)).length =
                (d1 :: d2 :: ds'').length := by
              rw [hperm.length_eq, List.length_map]
            cases hfC : (sortByName (canonList cs)).filter (isNEDir m) with
            | nil => rw [hfC] at hlen; simp at hlen
            | cons c1 cs' =>
              cases cs' with
              | nil => rw [hfC] at hlen; simp at hlen
              | cons c2 cs'' =>
                rw [hfC] at hdsC
                have hR : collapseFuel m (fuel + 1) (FSTree.dir false cs) rel =
                    .done (.dir false cs) rel := by
                  rw [collapseFuel, hds]
                have hL : collapseFuel m (fuel + 1)
                    (FSTree.dir false (sortByName (canonList cs))) rel =
                    .done (.dir false (sortByName (canonList cs))) rel := by
                  rw [collapseFuel, hdsC]
                rw [hL, hR, canonCRes, canonDir_eq]

theorem childEntry_canon (m : MountEntry) (pfx : List String) (c : String × FSTree)
    (h : errFree c.2 = true) :
    childEntry m pfx (c.1, canonTree c.2) = childEntry m pfx c := by
  rw [childEntry, childEntry]
  have h2 : isDirNode ((c.1, canonTree c.2)).2 = isDirNode c.2 := isDirNode_canon c.2
  rw [h2]
  by_cases hexc : isExcludedName m c.1 (isDirNode c.2) = true
  · rw [if_pos hexc, if_pos hexc]
  · rw [if_neg hexc, if_neg hexc]
    by_cases hdir : isDirNode c.2 = true
    · rw [if_pos hdir, if_pos hdir]
      have h3 : collapseChain m ((c.1, canonTree c.2)).2 [(c.1, canonTree c.2).1] =
          canonCRes (collapseChain m c.2 [c.1]) := by
        rw [collapseChain, collapseChain]
        have h4 : depth (canonTree c.2) = depth c.2 := depth_canon c.2
        rw [show ((c.1, canonTree c.2)).2 = canonTree c.2 from rfl, h4]
        exact collapse_canon m (depth c.2 + 1) c.2 [c.1] h
      rw [h3]
      cases hcc : collapseChain m c.2 [c.1] <;> rfl
    · rw [if_neg hdir, if_neg hdir]

end NueFS

namespace NueFS

theorem collapseFuel_rel_prefix (m : MountEntry) : ∀ (fuel : Nat) (t : FSTree)
    (rel : List String) (t' : FSTree) (rel' : List String),
    collapseFuel m fuel t rel = .done t' rel' → ∃ s, rel' = rel ++ s := by
  intro fuel
  induction fuel with
  | zero => intro t rel t' rel' h; cases h
  | succ fuel ih =>
    intro t rel t' rel' h
    match t with
    | .file e =>
      have h2 : CRes.done (FSTree.file e) rel = CRes.done t' rel' := h
      injection h2 with _ hb
      exact ⟨[], by rw [← hb, List.append_nil]⟩
    | .link =>
      have h2 : CRes.done FSTree.link rel = CRes.done t' rel' := h
      injection h2 with _ hb
      exact ⟨[], by rw [← hb, List.append_nil]⟩
    | .dir true cs =>
      have h2 : CRes.ioErr = CRes.done t' rel' := h
      cases h2
    | .dir false cs =>
      rw [collapseFuel] at h
      cases hscan : collapseScan m cs with
      | none => rw [hscan] at h; cases h
      | some p =>
        obtain ⟨hf, ds⟩ := p
        rw [hscan] at h
        cases hf with
        | true =>
          injection h with _ hb
          exact ⟨[], by rw [← hb, List.append_nil]⟩
        | false =>
          match ds, h with
          | [], h =>
            injection h with _ hb
            exact ⟨[], by rw [← hb, List.append_nil]⟩
          | [d], h =>
            obtain ⟨s, hs⟩ := ih d.2 (rel ++ [d.1]) t' rel' h
            exact ⟨d.1 :: s, by rw [hs, List.append_assoc]; rfl⟩
          | d1 :: d2 :: rest, h =>
            injection h with _ hb
            exact ⟨[], by rw [← hb, List.append_nil]⟩

theorem childEntry_key (m : MountEntry) (pfx : List String) (n : String) (u : FSTree)
    (k : List String) (e : MEntry) (h : childEntry m pfx (n, u) = some (k, e)) :
    ∃ tail, k = pfx ++ n :: tail := by
  rw [childEntry] at h
  by_cases hexc : isExcludedName m (n, u).1 (isDirNode (n, u).2) = true
  · rw [if_pos hexc] at h; cases h
  · rw [if_neg hexc] at h
    by_cases hdir : isDirNode (n, u).2 = true
    · rw [if_pos hdir] at h
      cases hcol : collapseChain m (n, u).2 [(n, u).1] with
      | done t' rel' =>
        rw [hcol] at h
        injection h with h2
        obtain ⟨s, hs⟩ := collapseFuel_rel_prefix m _ _ _ _ _ hcol
        have hk : k = pfx ++ rel' := (congrArg Prod.fst h2).symm
        exact ⟨s, by rw [hk, hs]; rfl⟩
      | outOfFuel => rw [hcol] at h; cases h
      | ioErr => rw [hcol] at h; cases h
    · rw [if_neg hdir] at h
      injection h with h2
      have hk : k = pfx ++ [n] := (congrArg Prod.fst h2).symm
      exact ⟨[], hk⟩

theorem childEntries_key_mem {m : MountEntry} {pfx : List String}
    {cs : List (String × FSTree)} {k : List String} {e : MEntry}
    (h : (k, e) ∈ cs.filterMap (childEntry m pfx)) :
    ∃ n tail u, k = pfx ++ n :: tail ∧ (n, u) ∈ cs := by
  obtain ⟨c, hc, hce⟩ := List.mem_filterMap.mp h
  obtain ⟨n, u⟩ := c
  obtain ⟨tail, htail⟩ := childEntry_key m pfx n u k e hce
  exact ⟨n, tail, u, htail, hc⟩

theorem childEntries_keys_nodup (m : MountEntry) (pfx : List String) :
    ∀ cs : List (String × FSTree), (cs.map Prod.fst).Nodup →
    ((cs.filterMap (childEntry m pfx)).map Prod.fst).Nodup := by
  intro cs
  induction cs with
  | nil => intro _; simp
  | cons hd tl ih =>
    intro hnd
    obtain ⟨n, u⟩ := hd
    rw [List.map_cons, List.nodup_cons] at hnd
    obtain ⟨hnotin, hndtl⟩ := hnd
    rw [List.filterMap_cons]
    cases hce : childEntry m pfx (n, u) with
    | none => exact ih hndtl
    | some ke =>
      obtain ⟨k, e⟩ := ke
      rw [List.map_cons, List.nodup_cons]
      refine ⟨?_, ih hndtl⟩
      intro hk
      obtain ⟨⟨k', e'⟩, hk'mem, hk'⟩ := List.mem_map.mp hk
      obtain ⟨n', tail', u', hk'eq, hmem'⟩ := childEntries_key_mem hk'mem
      obtain ⟨tail, htail⟩ := childEntry_key m pfx n u k e hce
      have : k' = k := hk'
      rw [this, htail] at hk'eq
      have := List.append_cancel_left hk'eq
      injection this with ha _
      apply hnotin
      rw [ha]
      exact List.mem_map.mpr ⟨(n', u'), hmem', rfl⟩

theorem foldl_build_lookup : ∀ (l : List (List String × MEntry))
    (st : List String → Option MEntry) (v : List String),
    (l.foldl (fun mp kv => fun k => if k = kv.1 then some kv.2 else mp k) st) v =
      (match buildMap l v with
       | some e => some e
       | none => st v) := by
  intro l
  induction l with
  | nil => intro st v; rfl
  | cons hd tl ih =>
    intro st v
    rw [List.foldl_cons, ih]
    have hR : buildMap (hd :: tl) v =
        (match buildMap tl v with
         | some e => some e
         | none => if v = hd.1 then some hd.2 else none) := by
      rw [buildMap, List.foldl_cons, ih]
    rw [hR]
    cases buildMap tl v with
    | some e => rfl
    | none =>
      by_cases hv : v = hd.1
      · simp [hv]
      · simp [hv]

theorem buildMap_cons (hd : List String × MEntry) (tl : List (List String × MEntry))
    (v : List String) :
    buildMap (hd :: tl) v =
      (match buildMap tl v with
       | some e => some e
       | none => if v = hd.1 then some hd.2 else none) := by
  rw [buildMap, List.foldl_cons, foldl_build_lookup]

theorem buildMap_append (a b : List (List String × MEntry)) (v : List String) :
    buildMap (a ++ b) v =
      (match buildMap b v with
       | some e => some e
       | none => buildMap a v) := by
  rw [buildMap, List.foldl_append, foldl_build_lookup]
  rfl

theorem buildMap_notmem : ∀ {l : List (List String × MEntry)} {v : List String},
    v ∉ l.map Prod.fst → buildMap l v = none := by
  intro l
  induction l with
  | nil => intro v _; rfl
  | cons hd tl ih =>
    intro v hv
    rw [List.map_cons] at hv
    have h1 : v ≠ hd.1 := fun h => hv (h ▸ List.mem_cons_self _ _)
    have h2 : v ∉ tl.map Prod.fst := fun h => hv (List.mem_cons_of_mem _ h)
    rw [buildMap_cons, ih h2, if_neg h1]

theorem buildMap_mem : ∀ {l : List (List String × MEntry)} {v : List String} {e : MEntry},
    (l.map Prod.fst).Nodup → (v, e) ∈ l → buildMap l v = some e := by
  intro l
  induction l with
  | nil => intro v e _ h; cases h
  | cons hd tl ih =>
    intro v e hnd hmem
    rw [List.map_cons, List.nodup_cons] at hnd
    obtain ⟨hnotin, hndtl⟩ := hnd
    rw [buildMap_cons]
    rcases List.mem_cons.mp hmem with h1 | h1
    · have hv : v = hd.1 := congrArg Prod.fst h1
      have he : e = hd.2 := congrArg Prod.snd h1
      have hnm : buildMap tl v = none := buildMap_notmem (by rw [hv]; exact hnotin)
      rw [hnm, if_pos hv, he]
    · rw [ih hndtl h1]

theorem buildMap_perm {l l' : List (List String × MEntry)} (h : l.Perm l')
    (hnd : (l.map Prod.fst).Nodup) : ∀ v, buildMap l v = buildMap l' v := by
  intro v
  have hnd' : (l'.map Prod.fst).Nodup := ((h.map Prod.fst).nodup_iff).mp hnd
  by_cases hv : v ∈ l.map Prod.fst
  · obtain ⟨⟨v', e⟩, hmem, hfst⟩ := List.mem_map.mp hv
    have hveq : v' = v := hfst
    subst hveq
    rw [buildMap_mem hnd hmem, buildMap_mem hnd' (h.mem_iff.mp hmem)]
  · have hv' : v ∉ l'.map Prod.fst := fun hc => hv (((h.map Prod.fst).mem_iff).mpr hc)
    rw [buildMap_notmem hv, buildMap_notmem hv']

end NueFS

namespace NueFS

theorem filterMap_congr_mem {α β : Type} {l : List α} {f g : α → Option β}
    (h : ∀ a ∈ l, f a = g a) : l.filterMap f = l.filterMap g := by
  induction l with
  | nil => rfl
  | cons hd tl ih =>
    rw [List.filterMap_cons, List.filterMap_cons, h hd (List.mem_cons_self _ _),
      ih (fun a ha => h a (List.mem_cons_of_mem _ ha))]

theorem pfxOf_canon (m : MountEntry) (t : FSTree) (nm : String) :
    pfxOf m (some (canonTree t)) nm = pfxOf m (some t) nm := by
  rw [pfxOf, pfxOf]
  by_cases hd : m.dest ≠ ""
  · rw [if_pos hd, if_pos hd]
  · rw [if_neg hd, if_neg hd]
    simp only [isFileNode_canon]

theorem iterEntries_file_ex (m : MountEntry) (e : Bool) (nm : String) :
    ∃ l, iterEntries m (some (.file e)) nm = some l := by
  simp only [iterEntries]
  split
  all_goals split
  all_goals exact ⟨_, rfl⟩

theorem iterEntries_canon (m : MountEntry) (t : FSTree) (nm : String)
    (herr : errFree t = true) :
    ∃ l lc, iterEntries m (some t) nm = some l ∧
      iterEntries m (some (canonTree t)) nm = some lc ∧ lc.Perm l := by
  cases t with
  | file e =>
    obtain ⟨l, hl⟩ := iterEntries_file_ex m e nm
    exact ⟨l, l, hl, hl, List.Perm.refl l⟩
  | link => exact ⟨[], [], rfl, rfl, List.Perm.refl []⟩
  | dir derr cs =>
    rw [errFree, Bool.and_eq_true] at herr
    have hderr : derr = false := by
      cases derr
      · rfl
      · exact absurd herr.1 (by decide)
    subst hderr
    have herrL : errFreeList cs = true := herr.2
    have hpfx : pfxOf m (some (FSTree.dir false (sortByName (canonList cs)))) nm =
        pfxOf m (some (FSTree.dir false cs)) nm := pfxOf_canon m (FSTree.dir false cs) nm
    by_cases hexp : expandContents m = true
    · have hL : iterEntries m (some (FSTree.dir false cs)) nm =
          some (cs.filterMap (childEntry m (pfxOf m (some (FSTree.dir false cs)) nm))) := by
        simp only [iterEntries, hexp, Bool.not_true, Bool.false_eq_true, if_false]
        exact expandChildren_errFree herrL
      have herrC : errFreeList (sortByName (canonList cs)) = true :=
        errFreeList_canon_sorted herrL
      have hC : iterEntries m (some (FSTree.dir false (sortByName (canonList cs)))) nm =
          some ((sortByName (canonList cs)).filterMap
            (childEntry m (pfxOf m (some (FSTree.dir false cs)) nm))) := by
        simp only [iterEntries, hexp, Bool.not_true, Bool.false_eq_true, if_false]
        rw [hpfx]
        exact expandChildren_errFree herrC
      have h2 : (canonList cs).filterMap
            (childEntry m (pfxOf m (some (FSTree.dir false cs)) nm)) =
          cs.filterMap (childEntry m (pfxOf m (some (FSTree.dir false cs)) nm)) := by
        rw [canonList_eq_map, List.filterMap_map]
        refine filterMap_congr_mem (fun c hc => ?_)
        exact childEntry_canon m _ c ((errFreeList_iff cs).mp herrL c hc)
      have hperm : ((sortByName (canonList cs)).filterMap
            (childEntry m (pfxOf m (some (FSTree.dir false cs)) nm))).Perm
          (cs.filterMap (childEntry m (pfxOf m (some (FSTree.dir false cs)) nm))) := by
        have h1 := (sortByName_perm (canonList cs)).filterMap
          (childEntry m (pfxOf m (some (FSTree.dir false cs)) nm))
        rw [h2] at h1
        exact h1
      exact ⟨_, _, hL, hC, hperm⟩
    · have hexp' : expandContents m = false := by simpa using hexp
      have hL : iterEntries m (some (FSTree.dir false cs)) nm =
          some [(pfxOf m (some (FSTree.dir false cs)) nm, ⟨[], true⟩)] := by
        simp only [iterEntries, hexp', Bool.not_false, if_true]
      have hC : iterEntries m (some (FSTree.dir false (sortByName (canonList cs)))) nm =
          some [(pfxOf m (some (FSTree.dir false cs)) nm, ⟨[], true⟩)] := by
        simp only [iterEntries, hexp', Bool.not_false, if_true, hpfx]
      exact ⟨_, _, hL, hC, List.Perm.refl _⟩

theorem iterEntries_keys_nodup (m : MountEntry) (nm : String) (t : FSTree)
    (hwf : wfTree t = true) (herr : errFree t = true) :
    ∀ l, iterEntries m (some t) nm = some l → (l.map Prod.fst).Nodup := by
  intro l hl
  cases t with
  | file e =>
    simp only [iterEntries] at hl
    split at hl
    all_goals split at hl
    all_goals (cases hl; simp)
  | link =>
    simp only [iterEntries] at hl
    cases hl
    simp
  | dir derr cs =>
    rw [errFree, Bool.and_eq_true] at herr
    have hderr : derr = false := by
      cases derr
      · rfl
      · exact absurd herr.1 (by decide)
    subst hderr
    have herrL : errFreeList cs = true := herr.2
    rw [wfTree, Bool.and_eq_true] at hwf
    have hnd : (cs.map Prod.fst).Nodup := of_decide_eq_true hwf.1
    by_cases hexp : expandContents m = true
    · simp only [iterEntries, hexp, Bool.not_true, Bool.false_eq_true, if_false] at hl
      rw [expandChildren_errFree herrL] at hl
      cases hl
      exact childEntries_keys_nodup m _ cs hnd
    · have hexp' : expandContents m = false := by simpa using hexp
      simp only [iterEntries, hexp', Bool.not_false, if_true] at hl
      cases hl
      simp

end NueFS

namespace NueFS

/-- The snapshot of a directory listing up to enumeration order: every
listing sorted by name, recursively.  Two snapshots of the same
filesystem state taken with different enumeration orders have the same
canonical form. -/
def canonOpt : Option FSTree → Option FSTree
  | none => none
  | some t => some (canonTree t)

/-- One compiled layer: its manifest entry, the snapshot of its resolved
source (`none` when the source does not exist) and the source basename. -/
structure LayerInput where
  entry : MountEntry
  src : Option FSTree
  sourceName : String

/-- Two layer inputs describing the same layer against the same
filesystem state: equal entries and basenames, and snapshots that agree
up to directory enumeration order (the first being well-formed and free
of read errors). -/
def LayerEquiv (a b : LayerInput) : Prop :=
  a.entry = b.entry ∧ a.sourceName = b.sourceName ∧
    wfOpt a.src = true ∧ errFreeOpt a.src = true ∧ canonOpt a.src = canonOpt b.src

/-- `compile`'s entry collection over a list of layers: concatenate each
layer's resolved entries in layer order (`none` when any layer's
resolution raises).  `buildMap` of the result is the compiled dict,
later layers overwriting earlier ones. -/
def resolveLayers : List LayerInput → Option (List (List String × MEntry))
  | [] => some []
  | a :: rest =>
    match iterEntries a.entry a.src a.sourceName, resolveLayers rest with
    | some l, some ls => some (l ++ ls)
    | _, _ => none

theorem layer_resolve_eq (a b : LayerInput) (h : LayerEquiv a b) :
    ∃ l l', iterEntries a.entry a.src a.sourceName = some l ∧
      iterEntries b.entry b.src b.sourceName = some l' ∧ l'.Perm l ∧
      ∀ v, buildMap l v = buildMap l' v := by
  obtain ⟨he, hn, hwf, herr, hc⟩ := h
  rw [← he, ← hn]
  cases hsa : a.src with
  | none =>
    have hb : b.src = none := by
      rw [hsa] at hc
      cases hsb : b.src with
      | none => rfl
      | some u => rw [hsb] at hc; simp [canonOpt] at hc
    rw [hb]
    exact ⟨[], [], rfl, rfl, List.Perm.refl [], fun v => rfl⟩
  | some t =>
    rw [hsa] at hc hwf herr
    have hbs : ∃ t', b.src = some t' ∧ canonTree t = canonTree t' := by
      cases hsb : b.src with
      | none => rw [hsb] at hc; simp [canonOpt] at hc
      | some t' =>
        rw [hsb] at hc
        refine ⟨t', rfl, ?_⟩
        simpa [canonOpt] using hc
    obtain ⟨t', hbs', hct⟩ := hbs
    rw [hbs']
    have hwft : wfTree t = true := hwf
    have herrt : errFree t = true := herr
    have herrt' : errFree t' = true := by
      rw [← errFree_canon t', ← hct, errFree_canon t]; exact herrt
    obtain ⟨la, lca, hla, hlca, hpa⟩ := iterEntries_canon a.entry t a.sourceName herrt
    obtain ⟨lb, lcb, hlb, hlcb, hpb⟩ := iterEntries_canon a.entry t' a.sourceName herrt'
    have hcc : lca = lcb := by
      rw [hct] at hlca
      have h12 := hlca.symm.trans hlcb
      injection h12
    have hperm : lb.Perm la := hpb.symm.trans (hcc ▸ hpa)
    have hnd : (la.map Prod.fst).Nodup :=
      iterEntries_keys_nodup a.entry a.sourceName t hwft herrt la hla
    exact ⟨la, lb, hla, hlb, hperm, fun v => buildMap_perm hperm.symm hnd v⟩

/-- CLAIM C9 (confirmed, for snapshots free of read errors): compilation
is deterministic and independent of directory enumeration order.  For two
runs over the same layer list against the same filesystem state — same
entries and source basenames, snapshots equal up to the order in which
each directory's children are enumerated, the state well-formed (no
duplicate names in a listing) and free of read errors — both runs
resolve every layer, the collected entry lists are permutations of each
other, and the compiled dicts are equal as maps from virtual path to
(backend path, is_dir). -/
theorem claim_C9_deterministic_compile :
    ∀ (layers : List LayerInput) (runB : List LayerInput),
      List.Forall₂ LayerEquiv layers runB →
      ∃ l l', resolveLayers layers = some l ∧ resolveLayers runB = some l' ∧
        l'.Perm l ∧ ∀ v, buildMap l v = buildMap l' v := by
  intro layers runB h
  induction h with
  | nil => exact ⟨[], [], rfl, rfl, List.Perm.refl [], fun v => rfl⟩
  | cons ha htl ih =>
    obtain ⟨l1, l1', h1, h1', hp1, hm1⟩ := layer_resolve_eq _ _ ha
    obtain ⟨ls, ls', h2, h2', hp2, hm2⟩ := ih
    refine ⟨l1 ++ ls, l1' ++ ls', ?_, ?_, hp1.append hp2, ?_⟩
    · rw [resolveLayers, h1, h2]
    · rw [resolveLayers, h1', h2']
    · intro v
      rw [buildMap_append, buildMap_append, hm2 v, hm1 v]

/-- Witness for C9 at two single-layer runs whose source snapshots list
the same directory in opposite enumeration orders. -/
theorem claim_C9_deterministic_compile_witness :
    ∃ l l', resolveLayers [⟨⟨"src/", "", [], []⟩,
        some (.dir false [("a", .file false), ("b", .dir false [])]), "src"⟩] = some l ∧
      resolveLayers [⟨⟨"src/", "", [], []⟩,
        some (.dir false [("b", .dir false []), ("a", .file false)]), "src"⟩] = some l' ∧
      l'.Perm l ∧ ∀ v, buildMap l v = buildMap l' v :=
  claim_C9_deterministic_compile _ _
    (List.Forall₂.cons ⟨rfl, rfl, by decide, by decide, by decide⟩ List.Forall₂.nil)

end NueFS
